import Mathlib

/-!
# Verification of the schema export/import comparison core

Shallow embedding of the repository's Python comparison core:

* `src/test-clients/python/src/comparator.py` — `SchemaComparator`
  (`normalize_schema`, `compare_schemas`, `generate_comparison_report`);
* `src/scripts/compare_results.py` — `compare_all_schemas`,
  `generate_summary`, `generate_markdown_report`, `main`.

JSON documents are modelled by the inductive type `JValue`
(numbers as `Int`: every document appearing in the claims uses integer
values only).  Python dictionaries are modelled as insertion-ordered
association lists; Python exceptions are modelled with `Except String`.
-/

namespace SchemaCompare

/-- A JSON value as handled by `json.loads` in the repository. -/
inductive JValue where
  | null : JValue
  | bool : Bool → JValue
  | num  : Int → JValue
  | str  : String → JValue
  | arr  : List JValue → JValue
  | obj  : List (String × JValue) → JValue

/-- A configuration document: a Python dict with string keys, as produced
by `json.load` on a schema `config.json` (insertion-ordered). -/
abbrev ConfigDocument := List (String × JValue)

/-! ## Python dict primitives (insertion-ordered association lists) -/

/-- `d.get(k)` / `d[k]`: first binding of `k` (a real dict has at most one). -/
def dGet : ConfigDocument → String → Option JValue
  | [], _ => none
  | (k', v) :: rest, k => if k' = k then some v else dGet rest k

/-- `k in d`. -/
def dHas (d : ConfigDocument) (k : String) : Bool :=
  (dGet d k).isSome

/-- `d.pop(k, None)`: remove the binding of `k` (order of the rest kept). -/
def dPop : ConfigDocument → String → ConfigDocument
  | [], _ => []
  | (k', v) :: rest, k => if k' = k then rest else (k', v) :: dPop rest k

/-- `d[k] = v`: overwrite in place when `k` is present, else append. -/
def dSet : ConfigDocument → String → JValue → ConfigDocument
  | [], k, v => [(k, v)]
  | (k', v') :: rest, k, v =>
      if k' = k then (k, v) :: rest else (k', v') :: dSet rest k v

/-- Keys are pairwise distinct: the invariant every Python dict satisfies. -/
def nodupKeys : List (String × JValue) → Bool
  | [] => true
  | (k, _) :: rest => !(rest.any fun e => e.1 = k) && nodupKeys rest

/-! ## Python value comparison used by `sorted` -/

def boolToInt (b : Bool) : Int := if b then 1 else 0

def cmpInt (a b : Int) : Ordering :=
  if a < b then .lt else if a = b then .eq else .gt

def cmpStr (a b : String) : Ordering :=
  if a < b then .lt else if a = b then .eq else .gt

/-- Python `<`-comparison of two JSON values, as invoked by `sorted`.
Numbers and booleans are cross-comparable (`bool` is an `int` subtype),
strings compare lexicographically by code point, and every other
combination raises `TypeError`.  (Python additionally compares two lists
element-wise; none of the sort keys in this code base is a list, and the
model raises for them.) -/
def pyCmpJ : JValue → JValue → Except String Ordering
  | .num a, .num b => .ok (cmpInt a b)
  | .num a, .bool b => .ok (cmpInt a (boolToInt b))
  | .bool a, .num b => .ok (cmpInt (boolToInt a) b)
  | .bool a, .bool b => .ok (cmpInt (boolToInt a) (boolToInt b))
  | .str a, .str b => .ok (cmpStr a b)
  | _, _ => .error "TypeError: unorderable types"

/-- Boolean `a <= b` under `pyCmpJ`; `false` on unorderable operands. -/
def pyLeB (a b : JValue) : Bool :=
  match pyCmpJ a b with
  | .ok .gt => false
  | .ok _ => true
  | .error _ => false

/-- The pair may be compared without a `TypeError`. -/
def comparableJ (a b : JValue) : Bool :=
  match pyCmpJ a b with
  | .ok _ => true
  | .error _ => false

/-! ## Stable insertion sort (the behaviour of Python `sorted`) -/

/-- Insert `x` before the first element it is `le`-below-or-equal to.
Together with `insSort` this is a stable sort, like Python `sorted`. -/
def insertSorted (le : α → α → Bool) (x : α) : List α → List α
  | [] => [x]
  | y :: ys => if le x y then x :: y :: ys else y :: insertSorted le x ys

def insSort (le : α → α → Bool) : List α → List α
  | [] => []
  | x :: xs => insertSorted le x (insSort le xs)

/-! ## The property-list sort of `normalize_schema` (comparator.py 57-62) -/

def isObjB : JValue → Bool
  | .obj _ => true
  | _ => false

/-- The sort key `lambda p: p.get('name', '')` for a dict element
(guarded by `isObjB` at the call site; `.get` raises on non-dicts). -/
def sortKeyOf : JValue → JValue
  | .obj fs => (dGet fs "name").getD (.str "")
  | _ => .str ""

/-- All sort keys pairwise comparable.  (CPython raises `TypeError` only
for the pairs Timsort happens to compare; the model demands every pair,
which coincides on homogeneous key lists — the only ones this repository
produces.) -/
def allPairsComp (ks : List JValue) : Bool :=
  ks.all fun a => ks.all fun b => comparableJ a b

/-- Comparison of two property descriptors by their sort keys. -/
def propLe (p q : JValue) : Bool := pyLeB (sortKeyOf p) (sortKeyOf q)

/-- `sorted(properties, key=lambda p: p.get('name', ''))`:
`AttributeError` when an element is not a dict, `TypeError` when keys are
unorderable, otherwise the stable sort by key. -/
def sortProps (l : List JValue) : Except String (List JValue) :=
  if !(l.all isObjB) then .error "AttributeError: get"
  else if !(allPairsComp (l.map sortKeyOf)) then
    .error "TypeError: unorderable types"
  else .ok (insSort propLe l)

/-! ## The vectorConfig key sort (comparator.py 64-66) -/

/-- Tuple comparison in `sorted(d.items())` looks at the key first; the
keys of a dict are distinct, so the values are never compared. -/
def pairLe (a b : String × JValue) : Bool := decide (a.1 ≤ b.1)

/-- `dict(sorted(d.items()))`. -/
def sortPairs (fs : ConfigDocument) : ConfigDocument := insSort pairLe fs

/-! ## `normalize_schema` (comparator.py 34-68) -/

mutual

/-- `json.loads(json.dumps(v))`: a structural deep copy (proved to be the
identity on JSON values below). -/
def deepCopy : JValue → JValue
  | .null => .null
  | .bool b => .bool b
  | .num n => .num n
  | .str s => .str s
  | .arr l => .arr (deepCopyList l)
  | .obj fs => .obj (deepCopyFields fs)

def deepCopyList : List JValue → List JValue
  | [] => []
  | x :: xs => deepCopy x :: deepCopyList xs

def deepCopyFields : List (String × JValue) → List (String × JValue)
  | [] => []
  | (k, v) :: rest => (k, deepCopy v) :: deepCopyFields rest

end

/-- Deep copy of a top-level document. -/
def deepCopyDoc (d : ConfigDocument) : ConfigDocument :=
  d.map fun e => (e.1, deepCopy e.2)

/-- Lines 46-47: `normalized.pop('creationTimeUnix', None)` and
`normalized.pop('lastUpdateTimeUnix', None)`. -/
def popTimestamps (d : ConfigDocument) : ConfigDocument :=
  dPop (dPop d "creationTimeUnix") "lastUpdateTimeUnix"

/-- Lines 49-55: normalize `class` to `name`; when both are present keep
`name`, when only the legacy `class` is present rename it to `name`. -/
def aliasStep (d : ConfigDocument) : ConfigDocument :=
  if dHas d "class" && !(dHas d "name") then
    match dGet d "class" with
    | some v => dSet (dPop d "class") "name" v
    | none => d
  else if dHas d "class" && dHas d "name" then
    dPop d "class"
  else d

/-- Lines 57-62: sort the `properties` list by name when present.
Python raises when the value is not a list of dicts. -/
def propsStep (d : ConfigDocument) : Except String ConfigDocument :=
  match dGet d "properties" with
  | none => .ok d
  | some (.arr l) =>
      match sortProps l with
      | .ok l' => .ok (dSet d "properties" (.arr l'))
      | .error e => .error e
  | some _ => .error "TypeError: properties value is not sortable"

/-- Lines 64-66: sort the `vectorConfig` keys when present.
`.items()` raises on a non-dict value. -/
def vectorStep (d : ConfigDocument) : Except String ConfigDocument :=
  match dGet d "vectorConfig" with
  | none => .ok d
  | some (.obj fs) => .ok (dSet d "vectorConfig" (.obj (sortPairs fs)))
  | some _ => .error "AttributeError: items"

/-- `SchemaComparator.normalize_schema` (comparator.py 34-68): deep copy,
strip volatile timestamp fields, resolve the `class`/`name` alias, sort
the property list by name, sort the `vectorConfig` keys. -/
def normalize_schema (schema : ConfigDocument) : Except String ConfigDocument :=
  match propsStep (aliasStep (popTimestamps (deepCopyDoc schema))) with
  | .error e => .error e
  | .ok d => vectorStep d

/-! ## The equivalence engine (comparator.py 70-108)

`compare_schemas` delegates the deep comparison to
`DeepDiff(a, b, ignore_order=True, report_repetition=True)`.  The diff is
empty exactly when the two trees are equal up to reordering of list
elements and of dict keys, with type-exact leaf comparison (DeepDiff
reports `1` vs `True` as a type change).  `deepEq` decides that relation:
lists are compared as multisets (equal length and, for every element of
the left list, equal multiplicity on both sides — DeepDiff hashes the
elements and compares multisets of hashes), dicts by key lookup. -/

mutual

def deepEq : JValue → JValue → Bool
  | .null, .null => true
  | .bool a, .bool b => a == b
  | .num a, .num b => a == b
  | .str a, .str b => a == b
  | .arr a, .arr b => a.length == b.length && deepEqElems a a b
  | .obj a, .obj b => a.length == b.length && deepEqFields a b
  | _, _ => false
termination_by a _ => (sizeOf a, 0, 0)

/-- Every element of the first list occurs equally often (under `deepEq`)
in `a` and in `b`: with equal lengths, multiset equality of `a` and `b`. -/
def deepEqElems : List JValue → List JValue → List JValue → Bool
  | [], _, _ => true
  | x :: xs, a, b =>
      countDeepEq x a == countDeepEq x b && deepEqElems xs a b
termination_by xs _ _ => (sizeOf xs, 0, 0)

/-- The number of elements of `l` that are `deepEq` to `x`. -/
def countDeepEq : JValue → List JValue → Nat
  | _, [] => 0
  | x, z :: zs => (if deepEq x z then 1 else 0) + countDeepEq x zs
termination_by x l => (sizeOf x, 1, sizeOf l)

/-- Every binding of the first dict is matched by a `deepEq` binding of
the second: with equal sizes and duplicate-free keys, dict equality. -/
def deepEqFields : List (String × JValue) → List (String × JValue) → Bool
  | [], _ => true
  | (k, v) :: rest, b =>
      (match dGet b k with
       | some w => deepEq v w
       | none => false) && deepEqFields rest b
termination_by fs _ => (sizeOf fs, 0, 0)

end

/-- The Python type tag of a JSON value, as DeepDiff sees it
(`NoneType`, `bool`, `int`, `str`, `list`, `dict`).  DeepDiff is
type-strict by default: two values of different tags at the same path
produce a `type_changes` entry (`bool` included, although it subclasses
`int`). -/
def jKind : JValue → Nat
  | .null => 0
  | .bool _ => 1
  | .num _ => 2
  | .str _ => 3
  | .arr _ => 4
  | .obj _ => 5

mutual

/-- Does `DeepDiff(a, b, ignore_order=True, report_repetition=True)`
record a `type_changes` entry for this pair?  Values of different Python
types at a common path produce one; same-type scalars can only yield
`values_changed` (whose payloads are JSON values).  Dict keys present on
one side only become `dictionary_item_added`/`removed` entries, which
carry JSON values even at `verbose_level=2`. -/
def typeChangesPair : JValue → JValue → Bool
  | .obj a, .obj b => typeChangesFields a b
  | .arr a, .arr b => typeChangesArr a a b
  | v, w => !(jKind v == jKind w)
termination_by v _ => (sizeOf v, 0, 0)

/-- The common-key traversal of two dicts. -/
def typeChangesFields :
    List (String × JValue) → List (String × JValue) → Bool
  | [], _ => false
  | (k, v) :: rest, b =>
      (match dGet b k with
       | some w => typeChangesPair v w
       | none => false) || typeChangesFields rest b
termination_by fs _ => (sizeOf fs, 0, 0)

/-- Lists under `ignore_order`: elements with a deep-equal partner match
up silently; the rest are reported as added/removed (JSON payloads) —
except that DeepDiff additionally pairs leftover items by its distance
heuristic and diffs each pair.  The heuristic itself is not specifiable,
so the model reports a possible `type_changes` entry whenever *some*
pairing of leftover items would produce one (an over-approximation that
no theorem below depends on). -/
def typeChangesArr : List JValue → List JValue → List JValue → Bool
  | [], _, _ => false
  | x :: xs, a, b =>
      ((!(b.any fun y => deepEq x y)) &&
        typeChangesAgainst x (b.filter fun y => !(a.any fun z => deepEq z y)))
        || typeChangesArr xs a b
termination_by xs _ _ => (sizeOf xs, 0, 0)

/-- One leftover left-hand item against every leftover right-hand item. -/
def typeChangesAgainst : JValue → List JValue → Bool
  | _, [] => false
  | x, y :: ys => typeChangesPair x y || typeChangesAgainst x ys
termination_by x l => (sizeOf x, 1, sizeOf l)

end

/-- The structured diff produced by `DeepDiff(...).to_dict()`, abstracted
to the two facts the downstream code observes: whether it is empty (this
alone decides `identical` and the truthiness checks), and whether it
contains a `type_changes` section — whose `old_type`/`new_type` entries
are Python class objects that `json.dumps` cannot serialize, unlike
every other entry of the dict (paths and JSON values). -/
inductive DiffDict where
  | empty : DiffDict
  | nonempty : DiffDict
  | typeChanges : DiffDict
deriving Repr, DecidableEq

/-- comparator.py 22-28: the table of documented default values
(`# Fields to normalize (apply defaults if missing)`).  No method of the
comparator reads it: `compare_schemas` normalizes both documents and
hands them to DeepDiff directly. -/
def DEFAULT_VALUES : List (String × JValue) :=
  [("replicationConfig.factor", .num 1),
   ("invertedIndexConfig.indexNullState", .bool false),
   ("invertedIndexConfig.indexPropertyLength", .bool false),
   ("invertedIndexConfig.indexTimestamps", .bool false)]

/-- `SchemaComparator.compare_schemas` (comparator.py 70-108): normalize
both documents, deep-compare them order-insensitively, return
`(is_identical, differences)`.  The baseline is normalized first, so its
exception surfaces first.  (The `schema_name` argument only feeds
logging and is dropped.) -/
def compare_schemas (baseline exported : ConfigDocument) :
    Except String (Bool × DiffDict) :=
  match normalize_schema baseline with
  | .error e => .error e
  | .ok normBaseline =>
      match normalize_schema exported with
      | .error e => .error e
      | .ok normExported =>
          if deepEq (.obj normBaseline) (.obj normExported) then .ok (true, .empty)
          else .ok (false,
            if typeChangesPair (.obj normBaseline) (.obj normExported)
            then .typeChanges else .nonempty)

/-! ## Outcomes and aggregation (compare_results.py) -/

/-- One entry of the `results` list built by `compare_all_schemas`.
`matched` is the dict key `'match'` (a Lean keyword); `error` is the
optional `'error'` key, present only for the not-exported case.  The
`baseline_path`/`exported_path` bookkeeping strings are boundary
metadata and are not modelled. -/
structure Outcome where
  schema_name : String
  client : String
  matched : Bool
  error : Option String
  differences : DiffDict
deriving Repr, DecidableEq

/-- Python `/` on the two counters: raises `ZeroDivisionError` on a zero
denominator.  (True division returns a float; the claims only inspect
exactness of `0`, so `Rat` is used.) -/
def pyDiv (a b : Nat) : Except String Rat :=
  if b = 0 then .error "ZeroDivisionError: division by zero"
  else .ok ((a : Rat) / (b : Rat))

/-- A document load result: `json.load(open(path))` either yields a
parsed document or raises. -/
abbrev LoadResult := Except String ConfigDocument

def alookup {α : Type} : List (String × α) → String → Option α
  | [], _ => none
  | (k', v) :: rest, k => if k' = k then some v else alookup rest k

/-- compare_results.py 87-93: the record appended when a client has no
exported document for a schema. -/
def notExportedOutcome (schemaName clientName : String) : Outcome :=
  { schema_name := schemaName, client := clientName, matched := false,
    error := some "Schema not exported by client", differences := .empty }

/-- The inner loop of `compare_all_schemas` (lines 85-113) over
`exported.items()` for one baseline schema.  An exception while loading
or comparing propagates (there is no `try` in the source); only the
missing-schema case is handled, by recording a failing outcome. -/
def compareClients (schemaName : String) (baseline : ConfigDocument) :
    List (String × List (String × LoadResult)) → Except String (List Outcome)
  | [] => .ok []
  | (clientName, clientSchemas) :: rest =>
      match alookup clientSchemas schemaName with
      | none =>
          match compareClients schemaName baseline rest with
          | .ok rs => .ok (notExportedOutcome schemaName clientName :: rs)
          | .error e => .error e
      | some (.error e) => .error e
      | some (.ok exportedSchema) =>
          match compare_schemas baseline exportedSchema with
          | .error e => .error e
          | .ok (m, d) =>
              match compareClients schemaName baseline rest with
              | .ok rs =>
                  .ok ({ schema_name := schemaName, client := clientName,
                         matched := m, error := none, differences := d } :: rs)
              | .error e => .error e

/-- `compare_all_schemas` (compare_results.py 69-115): iterate the
baselines in order; load each baseline (a parse error propagates and
aborts the whole call), then run every client against it. -/
def compare_all_schemas :
    List (String × LoadResult) → List (String × List (String × LoadResult)) →
    Except String (List Outcome)
  | [], _ => .ok []
  | (_, .error e) :: _, _ => .error e
  | (schemaName, .ok baseline) :: rest, exported =>
      match compareClients schemaName baseline exported with
      | .error e => .error e
      | .ok rs1 =>
          match compare_all_schemas rest exported with
          | .error e => .error e
          | .ok rs2 => .ok (rs1 ++ rs2)

/-- The per-client / per-schema counters of `generate_summary`. -/
structure Stats where
  total : Nat
  passed : Nat
  failed : Nat
deriving Repr, DecidableEq

/-- One pass of the accumulation loop in `generate_summary`
(compare_results.py 126-148): create a zeroed entry on first sight of the
key (dicts keep insertion order, so it is appended), then increment. -/
def bump : List (String × Stats) → String → Bool → List (String × Stats)
  | [], k, m => [(k, ⟨1, if m then 1 else 0, if m then 0 else 1⟩)]
  | (k', st) :: rest, k, m =>
      if k' = k then
        (k', ⟨st.total + 1, st.passed + (if m then 1 else 0),
              st.failed + (if m then 0 else 1)⟩) :: rest
      else (k', st) :: bump rest k m

/-- The dict returned by `generate_summary` (compare_results.py 150-157). -/
structure Summary where
  total : Nat
  passed : Nat
  failed : Nat
  pass_rate : Rat
  clients : List (String × Stats)
  schemas : List (String × Stats)
deriving Repr, DecidableEq

/-- `generate_summary` (compare_results.py 118-157).  The pass rate is
`(passed / total * 100) if total > 0 else 0` — the division is guarded. -/
def generate_summary (results : List Outcome) : Except String Summary :=
  let total := results.length
  let passed := results.countP (fun r => r.matched)
  let failed := total - passed
  let clients := results.foldl (fun m r => bump m r.client r.matched) []
  let schemas := results.foldl (fun m r => bump m r.schema_name r.matched) []
  match (if total > 0 then (pyDiv passed total).map (fun q => q * 100)
         else .ok 0) with
  | .error e => .error e
  | .ok rate => .ok ⟨total, passed, failed, rate, clients, schemas⟩

/-! ## Report rendering -/

/-- Python `"\x7b:.1f\x7d".format`: one decimal place. -/
def fmt1 (q : Rat) : String :=
  let t : Int := round (q * 10)
  toString (t / 10) ++ "." ++ toString (t % 10)

/-- `json.dumps(differences, indent=2)`.  The empty diff serializes to
an empty object and any diff without a `type_changes` section holds only
paths and JSON values (rendered text abstracted); a `type_changes`
section carries Python class objects as `old_type`/`new_type`, on which
`json.dumps` raises `TypeError`. -/
def pyJsonDumps : DiffDict → Except String String
  | .empty => .ok "\x7b\x7d"
  | .nonempty => .ok "\x7b \"values_changed\": \"...\" \x7d"
  | .typeChanges =>
      .error "TypeError: Object of type type is not JSON serializable"

/-- `(stats['passed'] / stats['total'] * 100) if stats['total'] > 0 else 0`
(compare_results.py 176 and 186). -/
def statRate (st : Stats) : Except String Rat :=
  if st.total > 0 then (pyDiv st.passed st.total).map (fun q => q * 100)
  else .ok 0

/-- One `### <key>` block of the per-client / per-schema sections of
`generate_markdown_report`. -/
def statSection : List (String × Stats) → Except String (List String)
  | [] => .ok []
  | (k, st) :: rest =>
      match statRate st with
      | .error e => .error e
      | .ok rate =>
          match statSection rest with
          | .error e => .error e
          | .ok tail =>
              .ok ([s!"### {k}",
                    s!"- Total: {st.total}",
                    s!"- Passed: {st.passed}",
                    s!"- Failed: {st.failed}",
                    "- Pass Rate: " ++ fmt1 rate ++ "%\n"] ++ tail)

/-- One block of the `## Detailed Failures` section
(compare_results.py 198-205): the raw error reason when the `error` key
is present, the `json.dumps` of the diff otherwise — which raises on a
diff holding a `type_changes` section. -/
def failureDetail (r : Outcome) : Except String (List String) :=
  match r.error with
  | some e => .ok [s!"### {r.client} / {r.schema_name}\n", s!"**Error:** {e}\n"]
  | none =>
      match pyJsonDumps r.differences with
      | .ok txt =>
          .ok [s!"### {r.client} / {r.schema_name}\n", "**Differences:**\n",
               "```json\n" ++ txt ++ "\n```\n"]
      | .error e => .error e

/-- The `for failure in failures` loop of the failure section. -/
def failureDetails : List Outcome → Except String (List String)
  | [] => .ok []
  | r :: rest =>
      match failureDetail r with
      | .error e => .error e
      | .ok ls =>
          match failureDetails rest with
          | .error e => .error e
          | .ok tail => .ok (ls ++ tail)

/-- `generate_markdown_report` (compare_results.py 160-210).  All
divisions are guarded by `total > 0` checks; when no failures exist the
full-consistency confirmation replaces the failure section; the failure
section `json.dumps`-renders each diff and therefore raises on a diff
with a `type_changes` section. -/
def generate_markdown_report (summary : Summary) (results : List Outcome) :
    Except String String :=
  match statSection summary.clients with
  | .error e => .error e
  | .ok clientLines =>
      match statSection summary.schemas with
      | .error e => .error e
      | .ok schemaLines =>
          let failures := results.filter (fun r => !r.matched)
          match (if failures.isEmpty then
              .ok ["## Cross-Language Consistency\n",
                "All clients produced identical schemas for all test cases.\n"]
            else
              (failureDetails failures).map
                (fun ls => "## Detailed Failures\n" :: ls)) with
          | .error e => .error e
          | .ok failLines =>
              let lines :=
                ["# Schema Comparison Report\n", "## Summary\n",
                 s!"- Total Tests: {summary.total}",
                 s!"- Passed: {summary.passed}",
                 s!"- Failed: {summary.failed}",
                 "- Pass Rate: " ++ fmt1 summary.pass_rate ++ "%\n",
                 "## Results by Client\n"] ++ clientLines ++
                ["## Results by Schema\n"] ++ schemaLines ++ failLines
              .ok (String.intercalate "\n" lines)

/-- The `for comp in comparisons: if not comp['match']` loop of
`generate_comparison_report` (comparator.py 136-142): every failing
entry has its diff rendered by `json.dumps`. -/
def compFailDetails : List Outcome → Except String (List String)
  | [] => .ok []
  | c :: rest =>
      match pyJsonDumps c.differences with
      | .error e => .error e
      | .ok txt =>
          match compFailDetails rest with
          | .error e => .error e
          | .ok tail =>
              .ok ((s!"### {c.schema_name}\n" ++ "**Differences:**\n" ++
                "```json\n" ++ txt ++ "\n```\n") :: tail)

/-- `SchemaComparator.generate_comparison_report` (comparator.py 110-152).
The pass rate `(passed/total*100)` on line 134 is NOT guarded: an empty
comparison list raises `ZeroDivisionError`; and the failure section
`json.dumps`-renders each failing diff, raising on a `type_changes`
section.  (The optional file write is boundary I/O and not modelled.) -/
def generate_comparison_report (comparisons : List Outcome) :
    Except String String :=
  let total := comparisons.length
  let passed := comparisons.countP (fun c => c.matched)
  let failed := total - passed
  match (pyDiv passed total).map (fun q => q * 100) with
  | .error e => .error e
  | .ok rate =>
      match (if failed > 0 then
          (compFailDetails (comparisons.filter (fun c => !c.matched))).map
            (fun ls => "## Failures\n" :: ls)
        else .ok []) with
      | .error e => .error e
      | .ok failLines =>
          let lines :=
            ["# Schema Comparison Report\n", "## Summary\n",
             s!"- Total Comparisons: {total}",
             s!"- Passed: {passed}",
             s!"- Failed: {failed}",
             "- Pass Rate: " ++ fmt1 rate ++ "%\n"] ++ failLines
          .ok (String.intercalate "\n" lines)

/-- The boundary process around `main` (compare_results.py 213-293).
`sys.exit(main())` turns the return value into the exit status: 1 early
when no baselines or no exported schemas were found, otherwise
`return 0 if summary['failed'] == 0 else 1` (line 289).  An exception
escaping `main` (a load error, a comparison error, or a `json.dumps`
failure during rendering) also terminates the process, with exit
status 1, so every run ends in an exit code; the `Except` wrapper is
kept for uniformity with the other boundary functions but never holds
an error. -/
def mainRun (baselines : List (String × LoadResult))
    (exported : List (String × List (String × LoadResult))) :
    Except String Nat :=
  if baselines.isEmpty then .ok 1
  else if exported.isEmpty then .ok 1
  else
    match compare_all_schemas baselines exported with
    | .error _ => .ok 1
    | .ok results =>
        match generate_summary results with
        | .error _ => .ok 1
        | .ok summary =>
            match generate_markdown_report summary results with
            | .error _ => .ok 1
            | .ok _ => .ok (if summary.failed = 0 then 0 else 1)

/-! ## A heap model for the mutation behaviour of `normalize_schema`

The Python body first takes a deep copy (`json.loads(json.dumps(schema))`,
line 43) and then mutates only the copy (`pop`, item assignment).  To make
"never mutates its argument" a statable property, documents live in a
store of numbered references and each mutating statement is an update of
the reference holding `normalized`. -/

abbrev Heap := List (Nat × ConfigDocument)

def hGet : Heap → Nat → Option ConfigDocument
  | [], _ => none
  | (r', d) :: rest, r => if r' = r then some d else hGet rest r

def hSet : Heap → Nat → ConfigDocument → Heap
  | [], r, d => [(r, d)]
  | (r', d') :: rest, r, d =>
      if r' = r then (r, d) :: rest else (r', d') :: hSet rest r d

/-- A reference not yet used by the heap. -/
def hFresh (h : Heap) : Nat := (h.map fun e => e.1).foldr max 0 + 1

/-- In-place mutation of the document behind `r`. -/
def hUpdate (h : Heap) (r : Nat) (f : ConfigDocument → ConfigDocument) : Heap :=
  match hGet h r with
  | some d => hSet h r (f d)
  | none => h

/-- In-place mutation that may raise. -/
def hUpdateE (h : Heap) (r : Nat)
    (f : ConfigDocument → Except String ConfigDocument) : Except String Heap :=
  match hGet h r with
  | some d =>
      match f d with
      | .ok d' => .ok (hSet h r d')
      | .error e => .error e
  | none => .ok h

/-- Imperative rendering of `normalize_schema`: `normalized` is a fresh
object holding the deep copy; every subsequent statement mutates that
fresh reference and never the argument reference. -/
def normalize_schema_imp (h : Heap) (r : Nat) : Except String (Heap × Nat) :=
  match hGet h r with
  | none => .error "invalid reference"
  | some schema =>
      let rNew := hFresh h
      let h1 := hSet h rNew (deepCopyDoc schema)
      let h2 := hUpdate h1 rNew popTimestamps
      let h3 := hUpdate h2 rNew aliasStep
      match hUpdateE h3 rNew propsStep with
      | .error e => .error e
      | .ok h4 =>
          match hUpdateE h4 rNew vectorStep with
          | .error e => .error e
          | .ok h5 => .ok (h5, rNew)

/-! ## Well-formed JSON values

`json.load` can only produce dicts whose keys are pairwise distinct;
`wfJ` states that invariant recursively.  Theorems quantifying over
arbitrary documents assume it, matching the data model ("an arbitrarily
nested mapping"). -/

mutual

def wfJ : JValue → Bool
  | .null => true
  | .bool _ => true
  | .num _ => true
  | .str _ => true
  | .arr l => wfList l
  | .obj fs => nodupKeys fs && wfFields fs

def wfList : List JValue → Bool
  | [] => true
  | x :: xs => wfJ x && wfList xs

def wfFields : List (String × JValue) → Bool
  | [] => true
  | (_, v) :: rest => wfJ v && wfFields rest

end

/-- Values of a document's top-level bindings are well formed. -/
def wfDoc (d : ConfigDocument) : Bool := nodupKeys d && wfFields d

/-- Sum of the `total` counters of a per-client / per-schema grouping. -/
def sumTotals (m : List (String × Stats)) : Nat :=
  (m.map fun e => e.2.total).sum

/-! # Theorems

## Dictionary lemmas -/

theorem dGet_dSet_self (d : ConfigDocument) (k : String) (v : JValue) :
    dGet (dSet d k v) k = some v := by
  induction d with
  | nil => simp [dSet, dGet]
  | cons e rest ih =>
      obtain ⟨k', v'⟩ := e
      by_cases h : k' = k <;> simp [dSet, dGet, h, ih]

theorem dGet_dSet_ne (d : ConfigDocument) {k k' : String} (v : JValue)
    (h : k' ≠ k) : dGet (dSet d k v) k' = dGet d k' := by
  induction d with
  | nil => simp [dSet, dGet, h, Ne.symm h]
  | cons e rest ih =>
      obtain ⟨k'', v''⟩ := e
      by_cases h2 : k'' = k
      · subst h2
        simp [dSet, dGet, Ne.symm h, h]
      · simp [dSet, dGet, h2, ih]

theorem dGet_dPop_ne (d : ConfigDocument) {k k' : String} (h : k' ≠ k) :
    dGet (dPop d k) k' = dGet d k' := by
  induction d with
  | nil => simp [dPop]
  | cons e rest ih =>
      obtain ⟨k'', v''⟩ := e
      by_cases h2 : k'' = k
      · subst h2
        simp [dPop, dGet, Ne.symm h]
      · simp [dPop, dGet, h2, ih]

theorem dGet_none_of_any_false (d : ConfigDocument) (k : String)
    (h : (d.any fun e => e.1 = k) = false) : dGet d k = none := by
  induction d with
  | nil => rfl
  | cons e rest ih =>
      obtain ⟨k', v'⟩ := e
      simp only [List.any_cons, Bool.or_eq_false_iff,
        decide_eq_false_iff_not] at h
      simp [dGet, h.1, ih h.2]

theorem dGet_dPop_self (d : ConfigDocument) (k : String)
    (hnd : nodupKeys d = true) : dGet (dPop d k) k = none := by
  induction d with
  | nil => simp [dPop, dGet]
  | cons e rest ih =>
      obtain ⟨k', v'⟩ := e
      simp only [nodupKeys, Bool.and_eq_true] at hnd
      by_cases h : k' = k
      · subst h
        simp only [dPop, if_pos rfl]
        exact dGet_none_of_any_false rest k' (by simpa using hnd.1)
      · simp [dPop, dGet, h, ih hnd.2]

theorem dPop_of_absent (d : ConfigDocument) (k : String)
    (h : dGet d k = none) : dPop d k = d := by
  induction d with
  | nil => rfl
  | cons e rest ih =>
      obtain ⟨k', v'⟩ := e
      by_cases h2 : k' = k
      · simp [dGet, h2] at h
      · simp only [dGet, if_neg h2] at h
        simp [dPop, h2, ih h]

theorem dSet_of_present (d : ConfigDocument) (k : String) (v : JValue)
    (h : dGet d k = some v) : dSet d k v = d := by
  induction d with
  | nil => simp [dGet] at h
  | cons e rest ih =>
      obtain ⟨k', v'⟩ := e
      by_cases h2 : k' = k
      · subst h2
        simp only [dGet, if_pos rfl, if_true, Option.some.injEq] at h
        subst h
        simp [dSet]
      · simp only [dGet, if_neg h2] at h
        simp [dSet, h2, ih h]

theorem dHas_dSet_ne (d : ConfigDocument) {k k' : String} (v : JValue)
    (h : k' ≠ k) : dHas (dSet d k v) k' = dHas d k' := by
  simp [dHas, dGet_dSet_ne d v h]

theorem dHas_dPop_ne (d : ConfigDocument) {k k' : String} (h : k' ≠ k) :
    dHas (dPop d k) k' = dHas d k' := by
  simp [dHas, dGet_dPop_ne d h]

theorem any_dPop_false (d : ConfigDocument) (k : String)
    (p : String × JValue → Bool) (h : d.any p = false) :
    (dPop d k).any p = false := by
  induction d with
  | nil => simpa [dPop] using h
  | cons e rest ih =>
      obtain ⟨k', v'⟩ := e
      simp only [List.any_cons, Bool.or_eq_false_iff] at h
      by_cases h2 : k' = k
      · simp [dPop, h2, h.2]
      · simp only [dPop, if_neg h2, List.any_cons, Bool.or_eq_false_iff]
        exact ⟨h.1, ih h.2⟩

theorem any_dSet (d : ConfigDocument) (k c : String) (v : JValue) :
    ((dSet d k v).any fun e => e.1 = c)
      = (((d.any fun e => e.1 = c)) || decide (k = c)) := by
  induction d with
  | nil => simp [dSet]
  | cons e rest ih =>
      obtain ⟨k', v'⟩ := e
      by_cases h2 : k' = k
      · subst h2
        by_cases hkc : k' = c <;> simp [dSet, hkc]
      · simp only [dSet, if_neg h2, List.any_cons, ih]
        by_cases hkc : k' = c <;> simp [hkc, Bool.or_assoc]

theorem nodupKeys_dPop (d : ConfigDocument) (k : String)
    (h : nodupKeys d = true) : nodupKeys (dPop d k) = true := by
  induction d with
  | nil => simpa [dPop] using h
  | cons e rest ih =>
      obtain ⟨k', v'⟩ := e
      simp only [nodupKeys, Bool.and_eq_true] at h
      by_cases h2 : k' = k
      · simpa [dPop, h2] using h.2
      · simp only [dPop, if_neg h2, nodupKeys, Bool.and_eq_true]
        refine ⟨?_, ih h.2⟩
        have := any_dPop_false rest k (fun e => e.1 = k') (by simpa using h.1)
        simpa using this

theorem nodupKeys_dSet (d : ConfigDocument) (k : String) (v : JValue)
    (h : nodupKeys d = true) : nodupKeys (dSet d k v) = true := by
  induction d with
  | nil => simp [dSet, nodupKeys]
  | cons e rest ih =>
      obtain ⟨k', v'⟩ := e
      simp only [nodupKeys, Bool.and_eq_true] at h
      by_cases h2 : k' = k
      · subst h2
        simp only [dSet, if_pos rfl, nodupKeys, Bool.and_eq_true]
        exact h
      · simp only [dSet, if_neg h2, nodupKeys, Bool.and_eq_true]
        refine ⟨?_, ih h.2⟩
        have := any_dSet rest k k' v
        simp only [this]
        have hne : decide (k = k') = false :=
          decide_eq_false fun hh => h2 hh.symm
        simp only [hne, Bool.or_false]
        simpa using h.1

theorem dPop_dSet_comm (d : ConfigDocument) {k k' : String} (v : JValue)
    (h : k' ≠ k) : dPop (dSet d k v) k' = dSet (dPop d k') k v := by
  induction d with
  | nil => simp [dSet, dPop, Ne.symm h]
  | cons e rest ih =>
      obtain ⟨k'', v''⟩ := e
      by_cases h1 : k'' = k
      · subst h1
        simp [dSet, dPop, Ne.symm h, fun hh : k'' = k' => h (hh.symm)]
      · by_cases h2 : k'' = k'
        · subst h2
          simp [dSet, dPop, h1]
        · simp [dSet, dPop, h1, h2, ih]

theorem dSet_dSet_comm (d : ConfigDocument) {k1 k2 : String}
    (v1 v2 : JValue) (h : k1 ≠ k2) (hk1 : dHas d k1 = true) :
    dSet (dSet d k1 v1) k2 v2 = dSet (dSet d k2 v2) k1 v1 := by
  induction d with
  | nil => simp [dHas, dGet] at hk1
  | cons e rest ih =>
      obtain ⟨k', v'⟩ := e
      by_cases h1 : k' = k1
      · subst h1
        simp [dSet, h, Ne.symm h]
      · by_cases h2 : k' = k2
        · subst h2
          simp [dSet, h, Ne.symm h, h1]
        · have hk1' : dHas rest k1 = true := by
            simpa [dHas, dGet, h1] using hk1
          simp [dSet, h1, h2, ih hk1']

theorem dSet_dSet_same (d : ConfigDocument) (k : String) (v w : JValue) :
    dSet (dSet d k v) k w = dSet d k w := by
  induction d with
  | nil => simp [dSet]
  | cons e rest ih =>
      obtain ⟨k', v'⟩ := e
      by_cases h : k' = k
      · subst h
        simp [dSet]
      · simp [dSet, h, ih]

/-! ## The Python comparison: characterizations, totality, transitivity -/

theorem pyLeB_num_num (a b : Int) :
    pyLeB (.num a) (.num b) = decide (a ≤ b) := by
  by_cases h1 : a < b
  · simp [pyLeB, pyCmpJ, cmpInt, h1, le_of_lt h1]
  · by_cases h2 : a = b <;>
      simp [pyLeB, pyCmpJ, cmpInt, h1, h2] <;> omega

theorem pyLeB_num_bool (a : Int) (b : Bool) :
    pyLeB (.num a) (.bool b) = decide (a ≤ boolToInt b) := by
  by_cases h1 : a < boolToInt b
  · simp [pyLeB, pyCmpJ, cmpInt, h1, le_of_lt h1]
  · by_cases h2 : a = boolToInt b <;>
      simp [pyLeB, pyCmpJ, cmpInt, h1, h2] <;> omega

theorem pyLeB_bool_num (a : Bool) (b : Int) :
    pyLeB (.bool a) (.num b) = decide (boolToInt a ≤ b) := by
  by_cases h1 : boolToInt a < b
  · simp [pyLeB, pyCmpJ, cmpInt, h1, le_of_lt h1]
  · by_cases h2 : boolToInt a = b <;>
      simp [pyLeB, pyCmpJ, cmpInt, h1, h2] <;> omega

theorem pyLeB_bool_bool (a b : Bool) :
    pyLeB (.bool a) (.bool b) = decide (boolToInt a ≤ boolToInt b) := by
  by_cases h1 : boolToInt a < boolToInt b
  · simp [pyLeB, pyCmpJ, cmpInt, h1, le_of_lt h1]
  · by_cases h2 : boolToInt a = boolToInt b <;>
      simp [pyLeB, pyCmpJ, cmpInt, h1, h2] <;> omega

theorem pyLeB_str_str (a b : String) :
    pyLeB (.str a) (.str b) = decide (a ≤ b) := by
  by_cases h1 : a < b
  · simp [pyLeB, pyCmpJ, cmpStr, h1, le_of_lt h1]
  · by_cases h2 : a = b
    · simp [pyLeB, pyCmpJ, cmpStr, h1, h2]
    · have : ¬(a ≤ b) := fun hle => h2 (le_antisymm hle (le_of_not_lt h1))
      simp [pyLeB, pyCmpJ, cmpStr, h1, h2, this]

theorem pyLeB_total (a b : JValue) (h : comparableJ a b = true) :
    pyLeB a b = true ∨ pyLeB b a = true := by
  cases a <;> cases b <;>
    simp_all [comparableJ, pyCmpJ, pyLeB_num_num, pyLeB_num_bool,
      pyLeB_bool_num, pyLeB_bool_bool, pyLeB_str_str] <;>
    first
      | omega
      | exact le_total _ _

theorem pyLeB_comparable (a b : JValue) (h : pyLeB a b = true) :
    comparableJ a b = true := by
  cases a <;> cases b <;> simp_all [pyLeB, comparableJ, pyCmpJ]

theorem pyLeB_trans (a b c : JValue) (hab : pyLeB a b = true)
    (hbc : pyLeB b c = true) : pyLeB a c = true := by
  cases a <;> cases b <;> cases c <;>
    first
      | (exfalso
         revert hab
         simp [pyLeB, pyCmpJ.eq_def]
         done)
      | (exfalso
         revert hbc
         simp [pyLeB, pyCmpJ.eq_def]
         done)
      | (simp only [pyLeB_num_num, pyLeB_num_bool, pyLeB_bool_num,
          pyLeB_bool_bool, decide_eq_true_eq] at hab hbc ⊢
         omega)
      | (simp only [pyLeB_str_str, decide_eq_true_eq] at hab hbc ⊢
         exact le_trans hab hbc)

/-! ## Insertion sort: permutation, sortedness, idempotence -/

theorem insertSorted_perm (le : α → α → Bool) (x : α) (l : List α) :
    (insertSorted le x l).Perm (x :: l) := by
  induction l with
  | nil => simp [insertSorted]
  | cons y ys ih =>
      by_cases h : le x y
      · simp [insertSorted, h]
      · simp only [insertSorted, if_neg h]
        exact (ih.cons y).trans (List.Perm.swap x y ys)

theorem insSort_perm (le : α → α → Bool) (l : List α) :
    (insSort le l).Perm l := by
  induction l with
  | nil => simp [insSort]
  | cons x xs ih =>
      exact (insertSorted_perm le x (insSort le xs)).trans (ih.cons x)

theorem mem_insSort (le : α → α → Bool) (l : List α) (a : α) :
    a ∈ insSort le l ↔ a ∈ l :=
  (insSort_perm le l).mem_iff

theorem pairwise_insertSorted (le : α → α → Bool) (x : α) (l : List α)
    (htot : ∀ a ∈ x :: l, ∀ b ∈ x :: l, le a b = true ∨ le b a = true)
    (htrans : ∀ a ∈ x :: l, ∀ b ∈ x :: l, ∀ c ∈ x :: l,
        le a b = true → le b c = true → le a c = true)
    (h : l.Pairwise fun a b => le a b = true) :
    (insertSorted le x l).Pairwise fun a b => le a b = true := by
  induction l with
  | nil => simp [insertSorted]
  | cons y ys ih =>
      rcases List.pairwise_cons.mp h with ⟨hy, hys⟩
      by_cases hxy : le x y = true
      · simp only [insertSorted, if_pos hxy]
        refine List.pairwise_cons.mpr ⟨?_, h⟩
        intro b hb
        rcases List.mem_cons.mp hb with hb | hb
        · rw [hb]
          exact hxy
        · exact htrans x (by simp) y (by simp) b (by simp [hb]) hxy
            (hy b hb)
      · simp only [insertSorted, if_neg hxy]
        refine List.pairwise_cons.mpr ⟨?_, ?_⟩
        · intro b hb
          rw [(insertSorted_perm le x ys).mem_iff] at hb
          rcases List.mem_cons.mp hb with hb | hb
          · rw [hb]
            rcases htot x (by simp) y (by simp) with h1 | h1
            · exact absurd h1 hxy
            · exact h1
          · exact hy b hb
        · have hsub : ∀ a, a ∈ x :: ys → a ∈ x :: y :: ys := by
            intro a ha
            rcases List.mem_cons.mp ha with h1 | h1
            · simp [h1]
            · simp [h1]
          exact ih (fun a ha b hb => htot a (hsub a ha) b (hsub b hb))
            (fun a ha b hb c hc =>
              htrans a (hsub a ha) b (hsub b hb) c (hsub c hc)) hys

theorem insSort_sorted (le : α → α → Bool) (l : List α)
    (htot : ∀ a ∈ l, ∀ b ∈ l, le a b = true ∨ le b a = true)
    (htrans : ∀ a ∈ l, ∀ b ∈ l, ∀ c ∈ l, le a b = true → le b c = true →
        le a c = true) :
    (insSort le l).Pairwise fun a b => le a b = true := by
  induction l with
  | nil => simp [insSort]
  | cons x xs ih =>
      simp only [insSort]
      have hmem : ∀ a ∈ insSort le xs, a ∈ x :: xs := by
        intro a ha
        exact List.mem_cons_of_mem x ((mem_insSort le xs a).mp ha)
      have hmem2 : ∀ a, a ∈ x :: insSort le xs → a ∈ x :: xs := by
        intro a ha
        rcases List.mem_cons.mp ha with h1 | h1
        · simp [h1]
        · exact hmem a h1
      refine pairwise_insertSorted le x (insSort le xs) ?_ ?_ ?_
      · intro a ha b hb
        exact htot a (hmem2 a ha) b (hmem2 b hb)
      · intro a ha b hb c hc
        exact htrans a (hmem2 a ha) b (hmem2 b hb) c (hmem2 c hc)
      · exact ih (fun a ha b hb => htot a (by simp [ha]) b (by simp [hb]))
          (fun a ha b hb c hc => htrans a (by simp [ha]) b (by simp [hb])
            c (by simp [hc]))

theorem insSort_of_pairwise (le : α → α → Bool) (l : List α)
    (h : l.Pairwise fun a b => le a b = true) : insSort le l = l := by
  induction l with
  | nil => rfl
  | cons x xs ih =>
      rcases List.pairwise_cons.mp h with ⟨hx, hxs⟩
      simp only [insSort, ih hxs]
      cases xs with
      | nil => rfl
      | cons y ys => simp [insertSorted, hx y (by simp)]

theorem insSort_idem (le : α → α → Bool) (l : List α)
    (htot : ∀ a ∈ l, ∀ b ∈ l, le a b = true ∨ le b a = true)
    (htrans : ∀ a ∈ l, ∀ b ∈ l, ∀ c ∈ l, le a b = true → le b c = true →
        le a c = true) :
    insSort le (insSort le l) = insSort le l :=
  insSort_of_pairwise le (insSort le l) (insSort_sorted le l htot htrans)

/-! ## The deep copy is the identity on JSON values -/

mutual

theorem deepCopy_eq : ∀ v : JValue, deepCopy v = v
  | .null => by simp [deepCopy]
  | .bool b => by simp [deepCopy]
  | .num n => by simp [deepCopy]
  | .str s => by simp [deepCopy]
  | .arr l => by simp [deepCopy, deepCopyList_eq l]
  | .obj fs => by simp [deepCopy, deepCopyFields_eq fs]

theorem deepCopyList_eq : ∀ l : List JValue, deepCopyList l = l
  | [] => by simp [deepCopyList]
  | x :: xs => by simp [deepCopyList, deepCopy_eq x, deepCopyList_eq xs]

theorem deepCopyFields_eq :
    ∀ fs : List (String × JValue), deepCopyFields fs = fs
  | [] => by simp [deepCopyFields]
  | (k, v) :: rest => by
      simp [deepCopyFields, deepCopy_eq v, deepCopyFields_eq rest]

end

theorem deepCopyDoc_eq (d : ConfigDocument) : deepCopyDoc d = d := by
  induction d with
  | nil => rfl
  | cons e rest ih => simp_all [deepCopyDoc, deepCopy_eq]

/-! ## The deep-equality relation of the equivalence engine -/

theorem sizeOf_mem_arr {l : List JValue} {x : JValue} (hx : x ∈ l) :
    sizeOf x < sizeOf (JValue.arr l) := by
  have := List.sizeOf_lt_of_mem hx
  simp only [JValue.arr.sizeOf_spec]
  omega

theorem sizeOf_mem_obj {fs : List (String × JValue)} {k : String}
    {v : JValue} (h : (k, v) ∈ fs) : sizeOf v < sizeOf (JValue.obj fs) := by
  have h1 := List.sizeOf_lt_of_mem h
  have h2 : sizeOf (k, v) = 1 + sizeOf k + sizeOf v := by
    simp +arith [Prod.mk.sizeOf_spec]
  simp only [JValue.obj.sizeOf_spec]
  omega

/-- Strong induction on the size of a JSON value. -/
theorem jStrongInd (P : JValue → Prop)
    (h : ∀ v, (∀ w, sizeOf w < sizeOf v → P w) → P v) : ∀ v, P v
  | v => h v fun w hw => jStrongInd P h w
termination_by v => sizeOf v
decreasing_by exact hw

theorem countDeepEq_eq_countP (x : JValue) (l : List JValue) :
    countDeepEq x l = l.countP fun z => deepEq x z := by
  induction l with
  | nil => simp [countDeepEq]
  | cons z zs ih =>
      by_cases h : deepEq x z <;>
        simp [countDeepEq, List.countP_cons, h, ih] <;> omega

theorem deepEqElems_of_counts (xs a b : List JValue)
    (h : ∀ x, countDeepEq x a = countDeepEq x b) :
    deepEqElems xs a b = true := by
  induction xs with
  | nil => simp [deepEqElems]
  | cons x rest ih => simp [deepEqElems, h x, ih]

/-- DeepDiff with `ignore_order` is blind to list reordering. -/
theorem deepEq_arr_perm {q1 q2 : List JValue} (h : q1.Perm q2) :
    deepEq (.arr q1) (.arr q2) = true := by
  simp only [deepEq, h.length_eq, beq_self_eq_true, Bool.true_and]
  refine deepEqElems_of_counts q1 q1 q2 fun x => ?_
  simp only [countDeepEq_eq_countP]
  exact h.countP_eq _

theorem wfList_mem {l : List JValue} {x : JValue} (hwf : wfList l = true)
    (hx : x ∈ l) : wfJ x = true := by
  induction l with
  | nil => cases hx
  | cons z zs ih =>
      simp only [wfList, Bool.and_eq_true] at hwf
      rcases List.mem_cons.mp hx with h1 | h1
      · rw [h1]
        exact hwf.1
      · exact ih hwf.2 h1

theorem wfFields_mem {fs : List (String × JValue)} {k : String} {v : JValue}
    (hwf : wfFields fs = true) (h : (k, v) ∈ fs) : wfJ v = true := by
  induction fs with
  | nil => cases h
  | cons e rest ih =>
      obtain ⟨k', v'⟩ := e
      simp only [wfFields, Bool.and_eq_true] at hwf
      rcases List.mem_cons.mp h with h1 | h1
      · rw [show v = v' from congrArg Prod.snd h1]
        exact hwf.1
      · exact ih hwf.2 h1

theorem dGet_of_mem_nodup {fs : List (String × JValue)} {k : String}
    {v : JValue} (hnd : nodupKeys fs = true) (h : (k, v) ∈ fs) :
    dGet fs k = some v := by
  induction fs with
  | nil => cases h
  | cons e rest ih =>
      obtain ⟨k', v'⟩ := e
      simp only [nodupKeys, Bool.and_eq_true] at hnd
      rcases List.mem_cons.mp h with h1 | h1
      · rw [show k = k' from congrArg Prod.fst h1,
          show v = v' from congrArg Prod.snd h1]
        simp [dGet]
      · have hk : k' ≠ k := by
          intro hh
          subst hh
          have := hnd.1
          simp only [Bool.not_eq_true', List.any_eq_false,
            decide_eq_false_iff_not] at this
          exact this _ h1 (by simp)
        simp [dGet, hk, ih hnd.2 h1]

/-- Any well-formed value is `deepEq` to itself. -/
theorem deepEq_refl : ∀ v : JValue, wfJ v = true → deepEq v v = true := by
  refine jStrongInd (fun v => wfJ v = true → deepEq v v = true) ?_
  intro v ih hwf
  match v with
  | .null => simp [deepEq]
  | .bool b => simp [deepEq]
  | .num n => simp [deepEq]
  | .str s => simp [deepEq]
  | .arr l =>
      simp only [deepEq, beq_self_eq_true, Bool.true_and]
      exact deepEqElems_of_counts l l l fun x => rfl
  | .obj fs =>
      simp only [deepEq, beq_self_eq_true, Bool.true_and]
      simp only [wfJ, Bool.and_eq_true] at hwf
      -- every binding of `fs` looks itself up in `fs`
      have hsub : ∀ gs : List (String × JValue),
          (∀ e ∈ gs, e ∈ fs) → deepEqFields gs fs = true := by
        intro gs
        induction gs with
        | nil => intro _; simp [deepEqFields]
        | cons e rest ihg =>
            intro hmem
            obtain ⟨k, w⟩ := e
            have hget : dGet fs k = some w :=
              dGet_of_mem_nodup hwf.1 (hmem (k, w) (by simp))
            have hw : deepEq w w = true :=
              ih w (sizeOf_mem_obj (hmem (k, w) (by simp)))
                (wfFields_mem hwf.2 (hmem (k, w) (by simp)))
            simp only [deepEqFields, hget, hw, Bool.true_and]
            exact ihg fun e he => hmem e (by simp [he])
      exact hsub fs fun e he => he

/-! ## Well-formedness bookkeeping -/

theorem dGet_mem {d : ConfigDocument} {k : String} {v : JValue}
    (h : dGet d k = some v) : (k, v) ∈ d := by
  induction d with
  | nil => simp [dGet] at h
  | cons e rest ih =>
      obtain ⟨k', v'⟩ := e
      by_cases h2 : k' = k
      · subst h2
        simp [dGet] at h
        simp [h]
      · simp only [dGet, if_neg h2] at h
        simp [ih h]

theorem mem_dPop {d : ConfigDocument} {k : String} {e : String × JValue}
    (h : e ∈ dPop d k) : e ∈ d := by
  induction d with
  | nil => simpa [dPop] using h
  | cons e2 rest ih =>
      obtain ⟨k', v'⟩ := e2
      by_cases h2 : k' = k
      · subst h2
        simp [dPop] at h
        simp [h]
      · simp only [dPop, if_neg h2] at h
        rcases List.mem_cons.mp h with h3 | h3
        · simp [h3]
        · simp [ih h3]

theorem mem_dSet {d : ConfigDocument} {k : String} {v : JValue}
    {e : String × JValue} (h : e ∈ dSet d k v) : e ∈ d ∨ e = (k, v) := by
  induction d with
  | nil =>
      simp only [dSet, List.mem_singleton] at h
      simp [h]
  | cons e2 rest ih =>
      obtain ⟨k', v'⟩ := e2
      by_cases h2 : k' = k
      · subst h2
        simp [dSet] at h
        rcases h with h3 | h3
        · simp [h3]
        · simp [h3]
      · simp only [dSet, if_neg h2] at h
        rcases List.mem_cons.mp h with h3 | h3
        · simp [h3]
        · rcases ih h3 with h4 | h4
          · simp [h4]
          · simp [h4]

theorem wfFields_iff_mem (fs : List (String × JValue)) :
    wfFields fs = true ↔ ∀ e ∈ fs, wfJ e.2 = true := by
  induction fs with
  | nil => simp [wfFields]
  | cons e rest ih =>
      obtain ⟨k, v⟩ := e
      simp [wfFields, ih]

theorem wfList_iff_mem (l : List JValue) :
    wfList l = true ↔ ∀ x ∈ l, wfJ x = true := by
  induction l with
  | nil => simp [wfList]
  | cons x xs ih => simp [wfList, ih]

theorem wfFields_dPop {d : ConfigDocument} (k : String)
    (h : wfFields d = true) : wfFields (dPop d k) = true := by
  rw [wfFields_iff_mem] at h ⊢
  exact fun e he => h e (mem_dPop he)

theorem wfFields_dSet {d : ConfigDocument} (k : String) (v : JValue)
    (hd : wfFields d = true) (hv : wfJ v = true) :
    wfFields (dSet d k v) = true := by
  rw [wfFields_iff_mem] at hd ⊢
  intro e he
  rcases mem_dSet he with h1 | h1
  · exact hd e h1
  · rw [h1]
    exact hv

theorem nodupKeys_iff_pairwise (fs : List (String × JValue)) :
    nodupKeys fs = true ↔ fs.Pairwise fun a b => a.1 ≠ b.1 := by
  induction fs with
  | nil => simp [nodupKeys]
  | cons e rest ih =>
      obtain ⟨k, v⟩ := e
      simp only [nodupKeys, Bool.and_eq_true, Bool.not_eq_true',
        List.any_eq_false, List.pairwise_cons, ih]
      constructor
      · rintro ⟨h1, h2⟩
        refine ⟨fun e he => ?_, h2⟩
        have h3 := h1 e he
        simp only [decide_eq_true_eq] at h3
        exact fun hh => h3 hh.symm
      · rintro ⟨h1, h2⟩
        refine ⟨fun e he => ?_, h2⟩
        simp only [decide_eq_true_eq]
        exact fun hh => h1 e he hh.symm

theorem nodupKeys_perm {fs gs : List (String × JValue)} (h : fs.Perm gs)
    (hn : nodupKeys fs = true) : nodupKeys gs = true := by
  rw [nodupKeys_iff_pairwise] at hn ⊢
  refine (List.Perm.pairwise_iff ?_ h).mp hn
  intro a b hab
  exact hab.symm

theorem length_dSet_present (d : ConfigDocument) (k : String) (v : JValue)
    (h : dHas d k = true) : (dSet d k v).length = d.length := by
  induction d with
  | nil => simp [dHas, dGet] at h
  | cons e rest ih =>
      obtain ⟨k', v'⟩ := e
      by_cases h2 : k' = k
      · simp [dSet, h2]
      · have : dHas rest k = true := by simpa [dHas, dGet, h2] using h
        simp [dSet, h2, ih this]

/-! ## Idempotence and permutation-stability of the two sorts -/

theorem allPairsComp_mem {ks : List JValue} (h : allPairsComp ks = true)
    {a b : JValue} (ha : a ∈ ks) (hb : b ∈ ks) : comparableJ a b = true := by
  simp only [allPairsComp, List.all_eq_true] at h
  exact h a ha b hb

theorem propLe_total_of_comp {l : List JValue}
    (h : allPairsComp (l.map sortKeyOf) = true) :
    ∀ p ∈ l, ∀ q ∈ l, propLe p q = true ∨ propLe q p = true := by
  intro p hp q hq
  exact pyLeB_total _ _ (allPairsComp_mem h (List.mem_map_of_mem _ hp)
    (List.mem_map_of_mem _ hq))

theorem propLe_trans_any :
    ∀ (p q r : JValue), propLe p q = true → propLe q r = true →
      propLe p r = true := by
  intro p q r h1 h2
  exact pyLeB_trans _ _ _ h1 h2

theorem sortProps_ok_inv {l q : List JValue} (h : sortProps l = .ok q) :
    (l.all isObjB) = true ∧ allPairsComp (l.map sortKeyOf) = true ∧
      q = insSort propLe l := by
  by_cases h1 : l.all isObjB
  · by_cases h2 : allPairsComp (l.map sortKeyOf)
    · refine ⟨h1, h2, ?_⟩
      simp only [sortProps, h1, h2, Bool.not_true] at h
      simpa using h.symm
    · simp [sortProps, h1, h2] at h
  · simp [sortProps, h1] at h

theorem sortProps_ok_of_perm {l q : List JValue} (h : sortProps l = .ok q)
    {p : List JValue} (hperm : l.Perm p) :
    sortProps p = .ok (insSort propLe p) := by
  obtain ⟨hobj, hcomp, _⟩ := sortProps_ok_inv h
  have hobj' : p.all isObjB = true := by
    rw [List.all_eq_true] at hobj ⊢
    exact fun x hx => hobj x (hperm.mem_iff.mpr hx)
  have hcomp' : allPairsComp (p.map sortKeyOf) = true := by
    simp only [allPairsComp, List.all_eq_true] at hcomp ⊢
    intro a ha b hb
    exact hcomp a ((hperm.map sortKeyOf).mem_iff.mpr ha)
      b ((hperm.map sortKeyOf).mem_iff.mpr hb)
  simp [sortProps, hobj', hcomp']

theorem sortProps_idem {l q : List JValue} (h : sortProps l = .ok q) :
    sortProps q = .ok q := by
  obtain ⟨hobj, hcomp, hq⟩ := sortProps_ok_inv h
  have hperm : l.Perm q := by
    rw [hq]
    exact (insSort_perm propLe l).symm
  have h5 := sortProps_ok_of_perm h hperm
  rw [h5]
  congr 1
  subst hq
  refine insSort_of_pairwise propLe (insSort propLe l)
    (insSort_sorted propLe l ?_ ?_)
  · intro a ha b hb
    exact propLe_total_of_comp hcomp a ha b hb
  · intro a _ b _ c _ h1 h2
    exact propLe_trans_any a b c h1 h2

theorem pairLe_total : ∀ a b : String × JValue,
    pairLe a b = true ∨ pairLe b a = true := by
  intro a b
  simp only [pairLe, decide_eq_true_eq]
  exact le_total a.1 b.1

theorem pairLe_trans : ∀ a b c : String × JValue,
    pairLe a b = true → pairLe b c = true → pairLe a c = true := by
  intro a b c
  simp only [pairLe, decide_eq_true_eq]
  exact le_trans

theorem sortPairs_idem (fs : ConfigDocument) :
    sortPairs (sortPairs fs) = sortPairs fs := by
  unfold sortPairs
  exact insSort_idem pairLe fs (fun a _ b _ => pairLe_total a b)
    (fun a _ b _ c _ => pairLe_trans a b c)

theorem sortPairs_perm (fs : ConfigDocument) : (sortPairs fs).Perm fs :=
  insSort_perm pairLe fs

/-! ## Step-by-step facts about `normalize_schema` -/

theorem dGet_not_has {d : ConfigDocument} {k : String}
    (h : dHas d k = false) : dGet d k = none := by
  cases hg : dGet d k with
  | none => rfl
  | some v => simp [dHas, hg] at h

theorem dGet_popTimestamps_ne (d : ConfigDocument) {k : String}
    (h1 : k ≠ "creationTimeUnix") (h2 : k ≠ "lastUpdateTimeUnix") :
    dGet (popTimestamps d) k = dGet d k := by
  unfold popTimestamps
  rw [dGet_dPop_ne _ h2, dGet_dPop_ne _ h1]

theorem popTimestamps_creation_none (d : ConfigDocument)
    (h : nodupKeys d = true) :
    dGet (popTimestamps d) "creationTimeUnix" = none := by
  unfold popTimestamps
  rw [dGet_dPop_ne _ (by decide)]
  exact dGet_dPop_self d _ h

theorem popTimestamps_update_none (d : ConfigDocument)
    (h : nodupKeys d = true) :
    dGet (popTimestamps d) "lastUpdateTimeUnix" = none :=
  dGet_dPop_self _ _ (nodupKeys_dPop _ _ h)

theorem nodupKeys_popTimestamps (d : ConfigDocument)
    (h : nodupKeys d = true) : nodupKeys (popTimestamps d) = true :=
  nodupKeys_dPop _ _ (nodupKeys_dPop _ _ h)

theorem dGet_aliasStep_ne (d : ConfigDocument) {k : String}
    (h1 : k ≠ "class") (h2 : k ≠ "name") :
    dGet (aliasStep d) k = dGet d k := by
  unfold aliasStep
  split_ifs with hc1 hc2
  · cases hget : dGet d "class" with
    | none => rfl
    | some v => rw [dGet_dSet_ne _ _ h2, dGet_dPop_ne _ h1]
  · exact dGet_dPop_ne _ h1
  · rfl

theorem aliasStep_class_none (d : ConfigDocument)
    (hnd : nodupKeys d = true) : dGet (aliasStep d) "class" = none := by
  unfold aliasStep
  split_ifs with hc1 hc2
  · cases hget : dGet d "class" with
    | none => simp [dHas, hget] at hc1
    | some v =>
        rw [dGet_dSet_ne _ _ (by decide)]
        exact dGet_dPop_self d _ hnd
  · exact dGet_dPop_self d _ hnd
  · cases hcl : dHas d "class" with
    | false => exact dGet_not_has hcl
    | true =>
        exfalso
        cases hnm : dHas d "name" with
        | true => exact hc2 (by simp [hcl, hnm])
        | false => exact hc1 (by simp [hcl, hnm])

theorem nodupKeys_aliasStep (d : ConfigDocument)
    (hnd : nodupKeys d = true) : nodupKeys (aliasStep d) = true := by
  unfold aliasStep
  split_ifs
  · cases dGet d "class" with
    | none => exact hnd
    | some v => exact nodupKeys_dSet _ _ _ (nodupKeys_dPop _ _ hnd)
  · exact nodupKeys_dPop _ _ hnd
  · exact hnd

theorem propsStep_ok_cases {d d' : ConfigDocument}
    (h : propsStep d = .ok d') :
    (dGet d "properties" = none ∧ d' = d) ∨
    (∃ l q, dGet d "properties" = some (.arr l) ∧ sortProps l = .ok q ∧
      d' = dSet d "properties" (.arr q)) := by
  unfold propsStep at h
  split at h
  next hget =>
    left
    exact ⟨hget, by injection h with h2; exact h2.symm⟩
  next l hget =>
    split at h
    next q hsort =>
      right
      exact ⟨l, q, hget, hsort, by injection h with h2; exact h2.symm⟩
    next e hsort => cases h
  next v hget hne => cases h

theorem dGet_propsStep_ne {d d' : ConfigDocument}
    (h : propsStep d = .ok d') {k : String} (hk : k ≠ "properties") :
    dGet d' k = dGet d k := by
  rcases propsStep_ok_cases h with ⟨_, rfl⟩ | ⟨l, q, _, _, rfl⟩
  · rfl
  · exact dGet_dSet_ne _ _ hk

theorem nodupKeys_propsStep {d d' : ConfigDocument}
    (h : propsStep d = .ok d') (hnd : nodupKeys d = true) :
    nodupKeys d' = true := by
  rcases propsStep_ok_cases h with ⟨_, rfl⟩ | ⟨l, q, _, _, rfl⟩
  · exact hnd
  · exact nodupKeys_dSet _ _ _ hnd

theorem vectorStep_ok_cases {d d' : ConfigDocument}
    (h : vectorStep d = .ok d') :
    (dGet d "vectorConfig" = none ∧ d' = d) ∨
    (∃ fs, dGet d "vectorConfig" = some (.obj fs) ∧
      d' = dSet d "vectorConfig" (.obj (sortPairs fs))) := by
  unfold vectorStep at h
  split at h
  next hget =>
    left
    exact ⟨hget, by injection h with h2; exact h2.symm⟩
  next fs hget =>
    right
    exact ⟨fs, hget, by injection h with h2; exact h2.symm⟩
  next v hget hne => cases h

theorem dGet_vectorStep_ne {d d' : ConfigDocument}
    (h : vectorStep d = .ok d') {k : String} (hk : k ≠ "vectorConfig") :
    dGet d' k = dGet d k := by
  rcases vectorStep_ok_cases h with ⟨_, rfl⟩ | ⟨fs, _, rfl⟩
  · rfl
  · exact dGet_dSet_ne _ _ hk

theorem nodupKeys_vectorStep {d d' : ConfigDocument}
    (h : vectorStep d = .ok d') (hnd : nodupKeys d = true) :
    nodupKeys d' = true := by
  rcases vectorStep_ok_cases h with ⟨_, rfl⟩ | ⟨fs, _, rfl⟩
  · exact hnd
  · exact nodupKeys_dSet _ _ _ hnd

/-- The heart of the idempotence claim: the output of a successful
normalization is a fixed point of `normalize_schema`. -/
theorem normalize_ok_fixed {x y : ConfigDocument}
    (hnd : nodupKeys x = true) (h : normalize_schema x = .ok y) :
    normalize_schema y = .ok y := by
  unfold normalize_schema at h
  rw [deepCopyDoc_eq] at h
  cases hps : propsStep (aliasStep (popTimestamps x)) with
  | error e => simp only [hps] at h; cases h
  | ok d3 =>
      simp only [hps] at h
      -- bookkeeping for the intermediate documents
      have hnd1 : nodupKeys (popTimestamps x) = true :=
        nodupKeys_popTimestamps x hnd
      have hnd2 : nodupKeys (aliasStep (popTimestamps x)) = true :=
        nodupKeys_aliasStep _ hnd1
      have hnd3 : nodupKeys d3 = true := nodupKeys_propsStep hps hnd2
      -- the three removed keys stay removed
      have hyc : dGet y "creationTimeUnix" = none := by
        rw [dGet_vectorStep_ne h (by decide),
          dGet_propsStep_ne hps (by decide),
          dGet_aliasStep_ne _ (by decide) (by decide)]
        exact popTimestamps_creation_none x hnd
      have hyu : dGet y "lastUpdateTimeUnix" = none := by
        rw [dGet_vectorStep_ne h (by decide),
          dGet_propsStep_ne hps (by decide),
          dGet_aliasStep_ne _ (by decide) (by decide)]
        exact popTimestamps_update_none x hnd
      have hycl : dGet y "class" = none := by
        rw [dGet_vectorStep_ne h (by decide),
          dGet_propsStep_ne hps (by decide)]
        exact aliasStep_class_none _ hnd1
      -- second pass
      unfold normalize_schema
      rw [deepCopyDoc_eq]
      have hpop : popTimestamps y = y := by
        unfold popTimestamps
        rw [dPop_of_absent _ _ hyc, dPop_of_absent _ _ hyu]
      rw [hpop]
      have halias : aliasStep y = y := by
        unfold aliasStep
        have : dHas y "class" = false := by simp [dHas, hycl]
        simp [this]
      rw [halias]
      have hprops : propsStep y = .ok y := by
        rcases propsStep_ok_cases hps with ⟨hnone, rfl⟩ | ⟨l, q, hsome, hsort, rfl⟩
        · -- properties absent all along
          have hyp : dGet y "properties" = none := by
            rw [dGet_vectorStep_ne h (by decide)]
            exact hnone
          unfold propsStep
          simp only [hyp]
        · -- properties present: already sorted
          have hq : dGet y "properties" = some (.arr q) := by
            rw [dGet_vectorStep_ne h (by decide)]
            exact dGet_dSet_self _ _ _
          unfold propsStep
          simp only [hq, sortProps_idem hsort, dSet_of_present _ _ _ hq]
      simp only [hprops]
      -- vector step
      rcases vectorStep_ok_cases h with ⟨hnone, rfl⟩ | ⟨fs, hsome, rfl⟩
      · unfold vectorStep
        simp only [hnone]
      · unfold vectorStep
        have hv : dGet (dSet d3 "vectorConfig" (.obj (sortPairs fs)))
            "vectorConfig" = some (.obj (sortPairs fs)) :=
          dGet_dSet_self _ _ _
        simp only [hv, sortPairs_idem, dSet_of_present _ _ _ hv]

/-! ## Normalization commutes with replacing the properties value -/

theorem popTimestamps_dSet (d : ConfigDocument) (v : JValue) :
    popTimestamps (dSet d "properties" v)
      = dSet (popTimestamps d) "properties" v := by
  unfold popTimestamps
  rw [dPop_dSet_comm _ _ (by decide), dPop_dSet_comm _ _ (by decide)]

theorem aliasStep_dSet (d : ConfigDocument) (v : JValue)
    (hP : dHas d "properties" = true) :
    aliasStep (dSet d "properties" v)
      = dSet (aliasStep d) "properties" v := by
  unfold aliasStep
  rw [dHas_dSet_ne d v (show "class" ≠ "properties" by decide),
    dHas_dSet_ne d v (show "name" ≠ "properties" by decide)]
  split_ifs with h1 h2
  · rw [dGet_dSet_ne d v (show "class" ≠ "properties" by decide)]
    cases hget : dGet d "class" with
    | none => rfl
    | some cv =>
        rw [dPop_dSet_comm _ _ (by decide)]
        have hP2 : dHas (dPop d "class") "properties" = true := by
          rw [dHas_dPop_ne d (by decide)]
          exact hP
        exact dSet_dSet_comm _ _ _ (by decide) hP2
  · exact dPop_dSet_comm _ _ (by decide)
  · rfl

/-- Running `normalize_schema` on the same document with its properties
list replaced by a permutation yields the normalization of the original
with its (sorted) properties list replaced by the sort of the
permutation. -/
theorem normalize_dSet_props {d n1 : ConfigDocument} {p1 p2 : List JValue}
    (hget : dGet d "properties" = some (.arr p1))
    (hperm : p1.Perm p2)
    (h : normalize_schema d = .ok n1) :
    normalize_schema (dSet d "properties" (.arr p2))
        = .ok (dSet n1 "properties" (.arr (insSort propLe p2))) ∧
      dGet n1 "properties" = some (.arr (insSort propLe p1)) := by
  unfold normalize_schema at h ⊢
  rw [deepCopyDoc_eq] at h
  rw [deepCopyDoc_eq]
  have hget1 : dGet (popTimestamps d) "properties" = some (.arr p1) := by
    rw [dGet_popTimestamps_ne d (by decide) (by decide)]
    exact hget
  have hget2 : dGet (aliasStep (popTimestamps d)) "properties"
      = some (.arr p1) := by
    rw [dGet_aliasStep_ne _ (by decide) (by decide)]
    exact hget1
  cases hps : propsStep (aliasStep (popTimestamps d)) with
  | error e => simp only [hps] at h; cases h
  | ok d3 =>
      simp only [hps] at h
      -- identify the sorted properties of the first run
      rcases propsStep_ok_cases hps with ⟨hnone, _⟩ | ⟨l, q, hsome, hsort, hd3⟩
      · rw [hnone] at hget2; cases hget2
      · rw [hget2] at hsome
        injection hsome with hsome
        injection hsome with hsome
        subst hsome
        obtain ⟨_, _, hq⟩ := sortProps_ok_inv hsort
        subst hq hd3
        -- second document, step by step
        rw [popTimestamps_dSet, aliasStep_dSet _ _ (by simp [dHas, hget1])]
        have hpropsL : propsStep
            (dSet (aliasStep (popTimestamps d)) "properties" (.arr p2))
            = .ok (dSet (aliasStep (popTimestamps d)) "properties"
                (.arr (insSort propLe p2))) := by
          unfold propsStep
          simp only [dGet_dSet_self, sortProps_ok_of_perm hsort hperm,
            dSet_dSet_same]
        simp only [hpropsL]
        -- the vector step on both documents
        rcases vectorStep_ok_cases h with ⟨hnone2, rfl⟩ | ⟨fs, hsome2, rfl⟩
        · have hvl : dGet (dSet (aliasStep (popTimestamps d)) "properties"
              (.arr (insSort propLe p2))) "vectorConfig" = none := by
            rw [dGet_dSet_ne _ _ (by decide)]
            rw [dGet_dSet_ne _ _ (by decide)] at hnone2
            exact hnone2
          unfold vectorStep
          simp only [hvl, dSet_dSet_same, dGet_dSet_self, and_self]
        · have hfs : dGet (aliasStep (popTimestamps d)) "vectorConfig"
              = some (.obj fs) := by
            rw [dGet_dSet_ne _ _ (show "vectorConfig" ≠ "properties" by decide)]
              at hsome2
            exact hsome2
          have hvl : dGet (dSet (aliasStep (popTimestamps d)) "properties"
              (.arr (insSort propLe p2))) "vectorConfig"
              = some (.obj fs) := by
            rw [dGet_dSet_ne _ _ (by decide)]
            exact hfs
          unfold vectorStep
          simp only [hvl]
          constructor
          · congr 1
            rw [dSet_dSet_comm _ _ _ (show "vectorConfig" ≠ "properties"
                by decide) (by simp [dHas, hsome2]), dSet_dSet_same]
          · rw [dGet_dSet_ne _ _ (show "properties" ≠ "vectorConfig"
              by decide)]
            exact dGet_dSet_self _ _ _

/-! ## Well-formedness is preserved by normalization -/

theorem wfList_perm {l p : List JValue} (h : l.Perm p)
    (hw : wfList l = true) : wfList p = true := by
  rw [wfList_iff_mem] at hw ⊢
  exact fun x hx => hw x (h.mem_iff.mpr hx)

theorem wfFields_perm {fs gs : List (String × JValue)} (h : fs.Perm gs)
    (hw : wfFields fs = true) : wfFields gs = true := by
  rw [wfFields_iff_mem] at hw ⊢
  exact fun e he => hw e (h.mem_iff.mpr he)

theorem wfFields_aliasStep (d : ConfigDocument)
    (hw : wfFields d = true) : wfFields (aliasStep d) = true := by
  unfold aliasStep
  split_ifs
  · cases hget : dGet d "class" with
    | none => exact hw
    | some cv =>
        refine wfFields_dSet _ _ (wfFields_dPop _ hw) ?_
        exact wfFields_mem hw (dGet_mem hget)
  · exact wfFields_dPop _ hw
  · exact hw

theorem normalize_wf {d n : ConfigDocument} (hwf : wfDoc d = true)
    (h : normalize_schema d = .ok n) : wfDoc n = true := by
  rw [wfDoc, Bool.and_eq_true] at hwf ⊢
  obtain ⟨hnd, hwff⟩ := hwf
  unfold normalize_schema at h
  rw [deepCopyDoc_eq] at h
  cases hps : propsStep (aliasStep (popTimestamps d)) with
  | error e => simp only [hps] at h; cases h
  | ok d3 =>
      simp only [hps] at h
      have hnd2 : nodupKeys (aliasStep (popTimestamps d)) = true :=
        nodupKeys_aliasStep _ (nodupKeys_popTimestamps d hnd)
      have hwff2 : wfFields (aliasStep (popTimestamps d)) = true :=
        wfFields_aliasStep _ (wfFields_dPop _ (wfFields_dPop _ hwff))
      have hnd3 : nodupKeys d3 = true := nodupKeys_propsStep hps hnd2
      have hwff3 : wfFields d3 = true := by
        rcases propsStep_ok_cases hps with ⟨_, rfl⟩ | ⟨l, q, hsome, hsort, rfl⟩
        · exact hwff2
        · refine wfFields_dSet _ _ hwff2 ?_
          have hvl : wfJ (.arr l) = true :=
            wfFields_mem hwff2 (dGet_mem hsome)
          rw [wfJ] at hvl ⊢
          obtain ⟨_, _, hq⟩ := sortProps_ok_inv hsort
          subst hq
          exact wfList_perm (insSort_perm propLe l).symm hvl
      constructor
      · exact nodupKeys_vectorStep h hnd3
      · rcases vectorStep_ok_cases h with ⟨_, rfl⟩ | ⟨fs, hsome, rfl⟩
        · exact hwff3
        · refine wfFields_dSet _ _ hwff3 ?_
          have hvo : wfJ (.obj fs) = true :=
            wfFields_mem hwff3 (dGet_mem hsome)
          rw [wfJ, Bool.and_eq_true] at hvo ⊢
          exact ⟨nodupKeys_perm (sortPairs_perm fs).symm hvo.1,
            wfFields_perm (sortPairs_perm fs).symm hvo.2⟩

/-- Replacing the (present) properties list of a well-formed document by a
permutation of it is invisible to `deepEq`. -/
theorem deepEq_obj_dSet_perm {n1 : ConfigDocument} {q1 q2 : List JValue}
    (hnd : nodupKeys n1 = true) (hwff : wfFields n1 = true)
    (hget : dGet n1 "properties" = some (.arr q1)) (hperm : q1.Perm q2) :
    deepEq (.obj n1) (.obj (dSet n1 "properties" (.arr q2))) = true := by
  have hlen : (dSet n1 "properties" (.arr q2)).length = n1.length :=
    length_dSet_present _ _ _ (by simp [dHas, hget])
  have hfields : ∀ gs : List (String × JValue),
      (∀ e ∈ gs, e ∈ n1) →
      deepEqFields gs (dSet n1 "properties" (.arr q2)) = true := by
    intro gs
    induction gs with
    | nil => intro _; simp [deepEqFields]
    | cons e rest ih =>
        intro hmem
        obtain ⟨k, v⟩ := e
        have hv : dGet n1 k = some v :=
          dGet_of_mem_nodup hnd (hmem (k, v) (by simp))
        by_cases hk : k = "properties"
        · subst hk
          rw [hget] at hv
          injection hv with hv
          simp only [deepEqFields, dGet_dSet_self, hv.symm,
            deepEq_arr_perm hperm, Bool.true_and]
          exact ih fun e he => hmem e (by simp [he])
        · have hg2 : dGet (dSet n1 "properties" (.arr q2)) k = some v := by
            rw [dGet_dSet_ne _ _ hk]
            exact hv
          have hrefl : deepEq v v = true :=
            deepEq_refl v (wfFields_mem hwff (hmem (k, v) (by simp)))
          simp only [deepEqFields, hg2, hrefl, Bool.true_and]
          exact ih fun e he => hmem e (by simp [he])
  simp only [deepEq, hlen, beq_self_eq_true, Bool.true_and]
  exact hfields n1 fun e he => he

/-! ## The pairwise runner -/

theorem compareClients_ok_length {s : String} {b : ConfigDocument}
    {ex : List (String × List (String × LoadResult))} {rs : List Outcome}
    (h : compareClients s b ex = .ok rs) : rs.length = ex.length := by
  induction ex generalizing rs with
  | nil =>
      unfold compareClients at h
      injection h with h
      simp [h.symm]
  | cons e rest ih =>
      obtain ⟨c, cs⟩ := e
      unfold compareClients at h
      split at h
      · cases hrec : compareClients s b rest with
        | ok rs2 =>
            rw [hrec] at h
            injection h with h
            simp [h.symm, ih hrec]
        | error e2 => rw [hrec] at h; cases h
      · cases h
      · split at h
        · cases h
        · cases hrec : compareClients s b rest with
          | ok rs2 =>
              rw [hrec] at h
              injection h with h
              simp [h.symm, ih hrec]
          | error e2 => rw [hrec] at h; cases h

theorem compare_all_ok_length {bs : List (String × LoadResult)}
    {ex : List (String × List (String × LoadResult))} {rs : List Outcome}
    (h : compare_all_schemas bs ex = .ok rs) :
    rs.length = bs.length * ex.length := by
  induction bs generalizing rs with
  | nil =>
      unfold compare_all_schemas at h
      injection h with h
      simp [h.symm]
  | cons e rest ih =>
      obtain ⟨s, eb⟩ := e
      cases eb with
      | error er => unfold compare_all_schemas at h; cases h
      | ok b =>
          unfold compare_all_schemas at h
          cases hcc : compareClients s b ex with
          | error e2 => rw [hcc] at h; cases h
          | ok rs1 =>
              rw [hcc] at h
              cases hrest : compare_all_schemas rest ex with
              | error e2 => rw [hrest] at h; cases h
              | ok rs2 =>
                  rw [hrest] at h
                  injection h with h
                  subst h
                  simp only [List.length_append, List.length_cons,
                    compareClients_ok_length hcc, ih hrest]
                  ring

theorem compareClients_not_exported {s : String} {b : ConfigDocument}
    {ex : List (String × List (String × LoadResult))} {rs : List Outcome}
    {c : String} {cs : List (String × LoadResult)}
    (h : compareClients s b ex = .ok rs) (hc : (c, cs) ∈ ex)
    (hmiss : alookup cs s = none) : notExportedOutcome s c ∈ rs := by
  induction ex generalizing rs with
  | nil => cases hc
  | cons e rest ih =>
      obtain ⟨c', cs'⟩ := e
      unfold compareClients at h
      rcases List.mem_cons.mp hc with hh | hh
      · have hc' : c' = c := (congrArg Prod.fst hh).symm
        have hcs' : cs' = cs := (congrArg Prod.snd hh).symm
        subst hc' hcs'
        rw [hmiss] at h
        cases hrec : compareClients s b rest with
        | ok rs2 =>
            rw [hrec] at h
            injection h with h
            simp [h.symm]
        | error e2 => rw [hrec] at h; cases h
      · split at h
        · cases hrec : compareClients s b rest with
          | ok rs2 =>
              rw [hrec] at h
              injection h with h
              rw [h.symm]
              exact List.mem_cons_of_mem _ (ih hrec hh)
          | error e2 => rw [hrec] at h; cases h
        · cases h
        · split at h
          · cases h
          · cases hrec : compareClients s b rest with
            | ok rs2 =>
                rw [hrec] at h
                injection h with h
                rw [h.symm]
                exact List.mem_cons_of_mem _ (ih hrec hh)
            | error e2 => rw [hrec] at h; cases h

theorem compare_all_not_exported {bs : List (String × LoadResult)}
    {ex : List (String × List (String × LoadResult))} {rs : List Outcome}
    {s : String} {eb : LoadResult} {c : String}
    {cs : List (String × LoadResult)}
    (h : compare_all_schemas bs ex = .ok rs) (hs : (s, eb) ∈ bs)
    (hc : (c, cs) ∈ ex) (hmiss : alookup cs s = none) :
    notExportedOutcome s c ∈ rs := by
  induction bs generalizing rs with
  | nil => cases hs
  | cons e rest ih =>
      obtain ⟨s', eb'⟩ := e
      cases eb' with
      | error er => unfold compare_all_schemas at h; cases h
      | ok b =>
          unfold compare_all_schemas at h
          cases hcc : compareClients s' b ex with
          | error e2 => rw [hcc] at h; cases h
          | ok rs1 =>
              rw [hcc] at h
              cases hrest : compare_all_schemas rest ex with
              | error e2 => rw [hrest] at h; cases h
              | ok rs2 =>
                  rw [hrest] at h
                  injection h with h
                  rw [h.symm]
                  rcases List.mem_cons.mp hs with hh | hh
                  · have hs' : s' = s := (congrArg Prod.fst hh).symm
                    subst hs'
                    exact List.mem_append_left _
                      (compareClients_not_exported hcc hc hmiss)
                  · exact List.mem_append_right _ (ih hrest hh)

/-- Every outcome either is a not-exported record (failing, empty diff,
with the fixed reason) or carries no error key at all: the two kinds the
runner can emit, distinguishable by the `error` field. -/
theorem compareClients_outcome_shape {s : String} {b : ConfigDocument}
    {ex : List (String × List (String × LoadResult))} {rs : List Outcome}
    (h : compareClients s b ex = .ok rs) :
    ∀ r ∈ rs, (r.matched = false ∧
        r.error = some "Schema not exported by client" ∧
        r.differences = .empty) ∨ r.error = none := by
  induction ex generalizing rs with
  | nil =>
      unfold compareClients at h
      injection h with h
      rw [h.symm]
      intro r hr
      cases hr
  | cons e rest ih =>
      obtain ⟨c', cs'⟩ := e
      unfold compareClients at h
      split at h
      · cases hrec : compareClients s b rest with
        | ok rs2 =>
            rw [hrec] at h
            injection h with h
            rw [h.symm]
            intro r hr
            rcases List.mem_cons.mp hr with hh | hh
            · left
              rw [hh]
              exact ⟨rfl, rfl, rfl⟩
            · exact ih hrec r hh
        | error e2 => rw [hrec] at h; cases h
      · cases h
      · split at h
        · cases h
        · cases hrec : compareClients s b rest with
          | ok rs2 =>
              rw [hrec] at h
              injection h with h
              rw [h.symm]
              intro r hr
              rcases List.mem_cons.mp hr with hh | hh
              · right
                rw [hh]
              · exact ih hrec r hh
          | error e2 => rw [hrec] at h; cases h

theorem compare_all_outcome_shape {bs : List (String × LoadResult)}
    {ex : List (String × List (String × LoadResult))} {rs : List Outcome}
    (h : compare_all_schemas bs ex = .ok rs) :
    ∀ r ∈ rs, (r.matched = false ∧
        r.error = some "Schema not exported by client" ∧
        r.differences = .empty) ∨ r.error = none := by
  induction bs generalizing rs with
  | nil =>
      unfold compare_all_schemas at h
      injection h with h
      rw [h.symm]
      intro r hr
      cases hr
  | cons e rest ih =>
      obtain ⟨s', eb'⟩ := e
      cases eb' with
      | error er => unfold compare_all_schemas at h; cases h
      | ok b =>
          unfold compare_all_schemas at h
          cases hcc : compareClients s' b ex with
          | error e2 => rw [hcc] at h; cases h
          | ok rs1 =>
              rw [hcc] at h
              cases hrest : compare_all_schemas rest ex with
              | error e2 => rw [hrest] at h; cases h
              | ok rs2 =>
                  rw [hrest] at h
                  injection h with h
                  rw [h.symm]
                  intro r hr
                  rcases List.mem_append.mp hr with hh | hh
                  · exact compareClients_outcome_shape hcc r hh
                  · exact ih hrest r hh

/-! ## Aggregation -/

theorem generate_summary_inv {rs : List Outcome} {s : Summary}
    (h : generate_summary rs = .ok s) :
    s.total = rs.length ∧
    s.passed = rs.countP (fun r => r.matched) ∧
    s.failed = s.total - s.passed ∧
    s.clients = rs.foldl (fun m r => bump m r.client r.matched) [] ∧
    s.schemas = rs.foldl (fun m r => bump m r.schema_name r.matched) [] ∧
    (rs = [] → s.pass_rate = 0) := by
  unfold generate_summary at h
  by_cases hlen : rs.length > 0
  · have hne : rs.length ≠ 0 := Nat.pos_iff_ne_zero.mp hlen
    simp only [hlen, if_pos, pyDiv, hne, if_neg, Except.map] at h
    injection h with h
    rw [h.symm]
    refine ⟨rfl, rfl, rfl, rfl, rfl, ?_⟩
    intro hnil
    rw [hnil] at hlen
    simp at hlen
  · simp only [hlen, if_neg] at h
    injection h with h
    rw [h.symm]
    exact ⟨rfl, rfl, rfl, rfl, rfl, fun _ => rfl⟩

theorem generate_summary_total (rs : List Outcome) :
    ∃ s, generate_summary rs = .ok s := by
  unfold generate_summary
  by_cases hlen : rs.length > 0
  · have hne : rs.length ≠ 0 := Nat.pos_iff_ne_zero.mp hlen
    simp [hlen, pyDiv, hne, Except.map]
  · simp [hlen]

theorem bump_sumTotals (m : List (String × Stats)) (k : String) (b : Bool) :
    sumTotals (bump m k b) = sumTotals m + 1 := by
  induction m with
  | nil => simp [bump, sumTotals]
  | cons e rest ih =>
      obtain ⟨k', st⟩ := e
      by_cases hk : k' = k
      · simp [bump, hk, sumTotals]
        omega
      · simp only [bump, if_neg hk, sumTotals, List.map_cons, List.sum_cons]
        have := ih
        simp only [sumTotals] at this
        omega

theorem bump_entry_inv (m : List (String × Stats)) (k : String) (b : Bool)
    (h : ∀ e ∈ m, e.2.passed + e.2.failed = e.2.total) :
    ∀ e ∈ bump m k b, e.2.passed + e.2.failed = e.2.total := by
  induction m with
  | nil =>
      intro e he
      simp only [bump, List.mem_singleton] at he
      rw [he]
      cases b <;> simp
  | cons e2 rest ih =>
      obtain ⟨k', st⟩ := e2
      intro e he
      by_cases hk : k' = k
      · simp only [bump, if_pos hk] at he
        rcases List.mem_cons.mp he with hh | hh
        · rw [hh]
          have hst : st.passed + st.failed = st.total := by
            simpa using h (k', st) (by simp)
          cases b <;> simp <;> omega
        · exact h e (by simp [hh])
      · simp only [bump, if_neg hk] at he
        rcases List.mem_cons.mp he with hh | hh
        · exact h e (by simp [hh])
        · exact ih (fun e2 he2 => h e2 (by simp [he2])) e hh

theorem foldl_bump_sum (f : Outcome → String) :
    ∀ (rs : List Outcome) (m : List (String × Stats)),
      sumTotals (rs.foldl (fun acc r => bump acc (f r) r.matched) m)
        = sumTotals m + rs.length := by
  intro rs
  induction rs with
  | nil => intro m; simp
  | cons r rest ih =>
      intro m
      simp only [List.foldl_cons, ih, bump_sumTotals, List.length_cons]
      omega

theorem foldl_bump_entry_inv (f : Outcome → String) :
    ∀ (rs : List Outcome) (m : List (String × Stats)),
      (∀ e ∈ m, e.2.passed + e.2.failed = e.2.total) →
      ∀ e ∈ rs.foldl (fun acc r => bump acc (f r) r.matched) m,
        e.2.passed + e.2.failed = e.2.total := by
  intro rs
  induction rs with
  | nil => intro m hm; exact hm
  | cons r rest ih =>
      intro m hm
      exact ih _ (bump_entry_inv m (f r) r.matched hm)

/-! ## Report rendering: the statistics sections never raise, the
failure sections only raise out of `json.dumps` -/

theorem statRate_ok (st : Stats) : ∃ r, statRate st = .ok r := by
  unfold statRate
  by_cases h : st.total > 0
  · have hne : st.total ≠ 0 := Nat.pos_iff_ne_zero.mp h
    simp [h, pyDiv, hne, Except.map]
  · simp [h]

theorem statSection_ok (m : List (String × Stats)) :
    ∃ ls, statSection m = .ok ls := by
  induction m with
  | nil => exact ⟨[], rfl⟩
  | cons e rest ih =>
      obtain ⟨k, st⟩ := e
      obtain ⟨r, hr⟩ := statRate_ok st
      obtain ⟨ls, hls⟩ := ih
      unfold statSection
      rw [hr, hls]
      exact ⟨_, rfl⟩

/-- A markdown rendering error can only come from the detailed-failures
section, so the outcome list contains a failing record. -/
theorem generate_markdown_report_error {s : Summary} {rs : List Outcome}
    {e : String} (h : generate_markdown_report s rs = .error e) :
    ∃ r ∈ rs, r.matched = false := by
  cases hl : rs.filter (fun r => !r.matched) with
  | nil =>
      exfalso
      obtain ⟨ls1, h1⟩ := statSection_ok s.clients
      obtain ⟨ls2, h2⟩ := statSection_ok s.schemas
      unfold generate_markdown_report at h
      rw [h1, h2] at h
      simp only [hl, List.isEmpty_nil, if_pos] at h
      cases h
  | cons r rest =>
      have hr : r ∈ rs.filter fun r => !r.matched := by simp [hl]
      have hm := List.mem_filter.mp hr
      exact ⟨r, hm.1, by simpa using hm.2⟩

theorem countP_lt_length_of_mem {α : Type} {l : List α} {x : α}
    {p : α → Bool} (hx : x ∈ l) (hpx : p x = false) :
    l.countP p < l.length := by
  induction l with
  | nil => cases hx
  | cons y ys ih =>
      rcases List.mem_cons.mp hx with h1 | h1
      · subst h1
        have := List.countP_le_length (l := ys) (p := p)
        simp [List.countP_cons, hpx]
        omega
      · by_cases hy : p y <;>
          simp only [List.countP_cons, hy, List.length_cons] <;>
          have := ih h1 <;> simp <;> omega

/-! ## The exit decision of the boundary process -/

theorem mainRun_exit {bs : List (String × LoadResult)}
    {ex : List (String × List (String × LoadResult))} {rs : List Outcome}
    {s : Summary} (hbs : bs ≠ []) (hex : ex ≠ [])
    (hc : compare_all_schemas bs ex = .ok rs)
    (hs : generate_summary rs = .ok s) :
    mainRun bs ex = .ok (if s.failed = 0 then 0 else 1) := by
  unfold mainRun
  cases hm : generate_markdown_report s rs with
  | ok t => simp [hbs, hex, hc, hs, hm]
  | error e =>
      -- the rendering crash implies a failing outcome, so the process
      -- exit 1 agrees with the would-be return value
      obtain ⟨r, hr, hrm⟩ := generate_markdown_report_error hm
      have hfail : s.failed ≠ 0 := by
        obtain ⟨ht, hp, hf, _⟩ := generate_summary_inv hs
        have hlt := countP_lt_length_of_mem (p := fun r => r.matched) hr hrm
        omega
      simp [hbs, hex, hc, hs, hm, hfail]

/-! ## The heap model: frame and agreement facts -/

theorem hGet_hSet_self (h : Heap) (r : Nat) (d : ConfigDocument) :
    hGet (hSet h r d) r = some d := by
  induction h with
  | nil => simp [hSet, hGet]
  | cons e rest ih =>
      obtain ⟨r', d'⟩ := e
      by_cases hr : r' = r
      · simp [hSet, hGet, hr]
      · simp [hSet, hGet, hr, ih]

theorem hGet_hSet_ne (h : Heap) {r r' : Nat} (d : ConfigDocument)
    (hne : r' ≠ r) : hGet (hSet h r d) r' = hGet h r' := by
  induction h with
  | nil => simp [hSet, hGet, hne, Ne.symm hne]
  | cons e rest ih =>
      obtain ⟨r'', d''⟩ := e
      by_cases hr : r'' = r
      · subst hr
        simp [hSet, hGet, Ne.symm hne, hne]
      · simp [hSet, hGet, hr, ih]

theorem hGet_lt_fresh {h : Heap} {r : Nat} {d : ConfigDocument}
    (hget : hGet h r = some d) : r < hFresh h := by
  induction h with
  | nil => simp [hGet] at hget
  | cons e rest ih =>
      obtain ⟨r', d'⟩ := e
      unfold hFresh at ih ⊢
      by_cases hr : r' = r
      · subst hr
        simp only [List.map_cons, List.foldr_cons]
        omega
      · simp only [hGet, if_neg hr] at hget
        have := ih hget
        simp only [List.map_cons, List.foldr_cons]
        omega

/-- Collapse of an in-place update whose reference is live. -/
theorem hUpdate_some {h : Heap} {r : Nat} {d : ConfigDocument}
    (hg : hGet h r = some d) (f : ConfigDocument → ConfigDocument) :
    hUpdate h r f = hSet h r (f d) := by
  unfold hUpdate
  rw [hg]

theorem hUpdateE_eq {h : Heap} {r : Nat} {d : ConfigDocument}
    (hg : hGet h r = some d)
    (f : ConfigDocument → Except String ConfigDocument) :
    hUpdateE h r f = match f d with
      | .ok d2 => .ok (hSet h r d2)
      | .error e => .error e := by
  unfold hUpdateE
  rw [hg]

/-- Frame property of the imperative normalization: the argument
reference is untouched, the result lives in a fresh reference, and its
content is exactly the pure `normalize_schema` of the input — the body
mutates only its deep copy. -/
theorem normalize_imp_frame {h : Heap} {r : Nat} {h2 : Heap} {r2 : Nat}
    (hr : normalize_schema_imp h r = .ok (h2, r2)) :
    hGet h2 r = hGet h r ∧ r2 ≠ r ∧
      ∃ schema n, hGet h r = some schema ∧
        normalize_schema schema = .ok n ∧ hGet h2 r2 = some n := by
  unfold normalize_schema_imp at hr
  cases hg : hGet h r with
  | none => simp only [hg] at hr; cases hr
  | some schema =>
      simp only [hg] at hr
      have hrne : hFresh h ≠ r := by
        have := hGet_lt_fresh hg
        omega
      rw [hUpdate_some (hGet_hSet_self h (hFresh h) (deepCopyDoc schema))]
        at hr
      rw [hUpdate_some (hGet_hSet_self _ (hFresh h)
        (popTimestamps (deepCopyDoc schema)))] at hr
      rw [hUpdateE_eq (hGet_hSet_self _ (hFresh h)
        (aliasStep (popTimestamps (deepCopyDoc schema))))] at hr
      cases hp : propsStep (aliasStep (popTimestamps (deepCopyDoc schema))) with
      | error e => simp only [hp] at hr; cases hr
      | ok d4 =>
          simp only [hp] at hr
          rw [hUpdateE_eq (hGet_hSet_self _ (hFresh h) d4)] at hr
          cases hv : vectorStep d4 with
          | error e => simp only [hv] at hr; cases hr
          | ok d5 =>
              simp only [hv] at hr
              injection hr with hr
              have hh2 : h2 = hSet (hSet (hSet (hSet (hSet h (hFresh h)
                  (deepCopyDoc schema)) (hFresh h)
                  (popTimestamps (deepCopyDoc schema))) (hFresh h)
                  (aliasStep (popTimestamps (deepCopyDoc schema))))
                  (hFresh h) d4) (hFresh h) d5 :=
                (congrArg Prod.fst hr).symm
              have hr2 : r2 = hFresh h := (congrArg Prod.snd hr).symm
              subst hh2 hr2
              refine ⟨?_, hrne, schema, d5, rfl, ?_, hGet_hSet_self _ _ _⟩
              · rw [hGet_hSet_ne _ _ (Ne.symm hrne),
                  hGet_hSet_ne _ _ (Ne.symm hrne),
                  hGet_hSet_ne _ _ (Ne.symm hrne),
                  hGet_hSet_ne _ _ (Ne.symm hrne),
                  hGet_hSet_ne _ _ (Ne.symm hrne), hg]
              · unfold normalize_schema
                simp only [hp, hv]

/-! # Claim theorems -/

/-- Claim C1 (code bug): the default-value table does document
`replicationConfig.factor = 1`, but `compare_schemas` never consults
`DEFAULT_VALUES`, so a baseline lacking the field is reported as
*different* from an exported document carrying the explicit default —
the claimed present-with-default ≡ absent equivalence does not hold in
the code.  (The `factor = 2` case is reported different, as claimed.) -/
theorem claim_C1 :
    alookup DEFAULT_VALUES "replicationConfig.factor" = some (.num 1) ∧
    compare_schemas [("name", .str "T")]
      [("name", .str "T"), ("replicationConfig", .obj [("factor", .num 1)])]
      = .ok (false, .nonempty) ∧
    compare_schemas [("name", .str "T")]
      [("name", .str "T"), ("replicationConfig", .obj [("factor", .num 2)])]
      = .ok (false, .nonempty) := by
  refine ⟨by simp [DEFAULT_VALUES, alookup], ?_, ?_⟩ <;>
    simp [compare_schemas, normalize_schema, propsStep, aliasStep,
      popTimestamps, deepCopyDoc, deepCopy, deepCopyList, deepCopyFields,
      dPop, dGet, dHas, dSet, vectorStep, deepEq, deepEqElems,
      deepEqFields, countDeepEq, jKind, typeChangesPair, typeChangesFields,
      typeChangesArr, typeChangesAgainst]

/-- Claim C2 (counterexample): one unparseable exported document aborts
the whole run — `compare_all_schemas` raises instead of producing
outcomes for the remaining (client, schema) pairs (here the healthy
client c2 gets no outcome). -/
theorem claim_C2_counterexample :
    compare_all_schemas [("s1", .ok [("name", .str "T")])]
      [("c1", [("s1", .error "Expecting value: line 1 column 1 (char 0)")]),
       ("c2", [("s1", .ok [("name", .str "T")])])]
      = .error "Expecting value: line 1 column 1 (char 0)" := by
  simp [compare_all_schemas, compareClients, alookup]

/-- Claim C2 (amended): failures are not isolated per pair — any load or
comparison exception aborts the entire `compare_all_schemas` call with no
outcome list at all.  When no exception occurs, the call produces exactly
one outcome per (baseline schema, client) combination. -/
theorem claim_C2 :
    ∀ (bs : List (String × LoadResult))
      (ex : List (String × List (String × LoadResult)))
      (rs : List Outcome),
      compare_all_schemas bs ex = .ok rs →
      rs.length = bs.length * ex.length :=
  fun _ _ _ h => compare_all_ok_length h

/-- Witness for C2: a run of one baseline and one client that completes,
with exactly 1 × 1 outcomes. -/
theorem claim_C2_witness :
    compare_all_schemas [("s1", .ok [("name", .str "T")])] [("c1", [])]
      = .ok [notExportedOutcome "s1" "c1"] ∧
    ([notExportedOutcome "s1" "c1"] : List Outcome).length = 1 * 1 := by
  have h : compare_all_schemas [("s1", .ok [("name", .str "T")])]
      [("c1", [])] = .ok [notExportedOutcome "s1" "c1"] := by
    simp [compare_all_schemas, compareClients, alookup]
  exact ⟨h, claim_C2 _ _ _ h⟩

/-- Claim C3 (counterexample): `generate_comparison_report` divides
`passed / total` without a guard (comparator.py 134) and raises
`ZeroDivisionError` on an empty comparison list. -/
theorem claim_C3_counterexample :
    generate_comparison_report []
      = .error "ZeroDivisionError: division by zero" := by
  simp [generate_comparison_report, pyDiv, Except.map]

/-- Claim C3 (amended): `generate_summary` never raises — the empty list
yields `pass_rate = 0` thanks to the `total > 0` guard — but neither
renderer is crash-proof.  Besides the unguarded division of
`generate_comparison_report` on the empty list (the counterexample),
both renderers `json.dumps` the raw diff of each failing outcome and so
raise `TypeError` whenever that diff carries a `type_changes` section
(its `old_type`/`new_type` entries are Python class objects).  Such a
diff is reachable: comparing `factor: 1` against `factor: "1"` yields
exactly one. -/
theorem claim_C3 :
    (∀ rs : List Outcome, ∃ s, generate_summary rs = .ok s ∧
      (rs = [] → s.pass_rate = 0)) ∧
    compare_schemas
      [("name", .str "T"), ("replicationConfig", .obj [("factor", .num 1)])]
      [("name", .str "T"), ("replicationConfig", .obj [("factor", .str "1")])]
      = .ok (false, .typeChanges) ∧
    generate_markdown_report
      ⟨1, 0, 1, 0, [("c1", ⟨1, 0, 1⟩)], [("s1", ⟨1, 0, 1⟩)]⟩
      [{ schema_name := "s1", client := "c1", matched := false,
         error := none, differences := .typeChanges }]
      = .error "TypeError: Object of type type is not JSON serializable" ∧
    generate_comparison_report
      [{ schema_name := "s1", client := "c1", matched := false,
         error := none, differences := .typeChanges }]
      = .error "TypeError: Object of type type is not JSON serializable" := by
  refine ⟨?_, ?_, ?_, ?_⟩
  · intro rs
    obtain ⟨s, hs⟩ := generate_summary_total rs
    exact ⟨s, hs, (generate_summary_inv hs).2.2.2.2.2⟩
  · simp [compare_schemas, normalize_schema, propsStep, aliasStep,
      popTimestamps, deepCopyDoc, deepCopy, deepCopyList, deepCopyFields,
      dPop, dGet, dHas, dSet, vectorStep, deepEq, deepEqElems,
      deepEqFields, countDeepEq, jKind, typeChangesPair, typeChangesFields,
      typeChangesArr, typeChangesAgainst]
  · simp [generate_markdown_report, statSection, statRate, pyDiv,
      Except.map, failureDetails, failureDetail, pyJsonDumps]
  · simp [generate_comparison_report, pyDiv, Except.map, compFailDetails,
      pyJsonDumps]

/-- Witness for C3: the empty outcome list through the aggregator. -/
theorem claim_C3_witness :
    ∃ s, generate_summary [] = .ok s ∧
      (([] : List Outcome) = [] → s.pass_rate = 0) :=
  claim_C3.1 []

/-- Claim C4: normalization is idempotent.  For every document (with the
duplicate-free keys every Python dict has), feeding the result of
`normalize_schema` back into `normalize_schema` returns it unchanged;
when the first run raises, the composition raises the same error. -/
theorem claim_C4 :
    ∀ x : ConfigDocument, nodupKeys x = true →
      (normalize_schema x).bind normalize_schema = normalize_schema x := by
  intro x hnd
  cases h : normalize_schema x with
  | error e => rfl
  | ok y =>
      show normalize_schema y = .ok y
      exact normalize_ok_fixed hnd h

/-- Witness for C4: a document exercising the timestamp strip, the
class/name alias, and the property sort. -/
theorem claim_C4_witness :
    nodupKeys [("class", JValue.str "T"),
      ("properties", .arr [.obj [("name", .str "b")],
        .obj [("name", .str "a")]]),
      ("creationTimeUnix", .num 5)] = true ∧
    (normalize_schema [("class", JValue.str "T"),
      ("properties", .arr [.obj [("name", .str "b")],
        .obj [("name", .str "a")]]),
      ("creationTimeUnix", .num 5)]).bind normalize_schema
    = normalize_schema [("class", JValue.str "T"),
      ("properties", .arr [.obj [("name", .str "b")],
        .obj [("name", .str "a")]]),
      ("creationTimeUnix", .num 5)] := by
  refine ⟨?_, claim_C4 _ ?_⟩ <;> simp [nodupKeys]

/-- Claim C5: a client with no exported document for a baseline schema
yields, in any completed run, an outcome with `match = false` and the
explicit reason "Schema not exported by client" and an empty diff —
distinct from content-mismatch outcomes, which never carry an error
reason. -/
theorem claim_C5 :
    ∀ (bs : List (String × LoadResult))
      (ex : List (String × List (String × LoadResult)))
      (rs : List Outcome) (s : String) (eb : LoadResult) (c : String)
      (cs : List (String × LoadResult)),
      compare_all_schemas bs ex = .ok rs → (s, eb) ∈ bs → (c, cs) ∈ ex →
      alookup cs s = none →
      (notExportedOutcome s c ∈ rs ∧
       (notExportedOutcome s c).matched = false ∧
       (notExportedOutcome s c).error
         = some "Schema not exported by client" ∧
       (notExportedOutcome s c).differences = .empty ∧
       ∀ r ∈ rs, (r.matched = false ∧
         r.error = some "Schema not exported by client" ∧
         r.differences = .empty) ∨ r.error = none) := by
  intro bs ex rs s eb c cs h hs hc hmiss
  exact ⟨compare_all_not_exported h hs hc hmiss, rfl, rfl, rfl,
    compare_all_outcome_shape h⟩

/-- Witness for C5: one baseline, one client whose only export is for a
different schema. -/
theorem claim_C5_witness :
    notExportedOutcome "s1" "c1" ∈ [notExportedOutcome "s1" "c1"] ∧
    (notExportedOutcome "s1" "c1").matched = false ∧
    (notExportedOutcome "s1" "c1").error
      = some "Schema not exported by client" ∧
    (notExportedOutcome "s1" "c1").differences = .empty ∧
    ∀ r ∈ [notExportedOutcome "s1" "c1"], (r.matched = false ∧
      r.error = some "Schema not exported by client" ∧
      r.differences = .empty) ∨ r.error = none := by
  have h : compare_all_schemas [("s1", .ok [("name", .str "T")])]
      [("c1", [("s2", .ok [("name", .str "U")])])]
      = .ok [notExportedOutcome "s1" "c1"] := by
    simp [compare_all_schemas, compareClients, alookup]
  exact claim_C5 _ _ _ "s1" (.ok [("name", .str "T")]) "c1"
    [("s2", .ok [("name", .str "U")])] h (by simp) (by simp)
    (by simp [alookup])

/-- Claim C6: the end-to-end scenario.  The legacy `class` field is
renamed to `name` and the volatile `creationTimeUnix` field is stripped,
so the two documents compare identical. -/
theorem claim_C6 :
    compare_schemas
      [("name", .str "T"),
       ("properties", .arr [.obj [("name", .str "x"),
         ("dataType", .arr [.str "text"])]])]
      [("class", .str "T"),
       ("properties", .arr [.obj [("name", .str "x"),
         ("dataType", .arr [.str "text"])]]),
       ("creationTimeUnix", .num 123)]
      = .ok (true, .empty) := by
  simp [compare_schemas, normalize_schema, propsStep, aliasStep,
    popTimestamps, deepCopyDoc, deepCopy, deepCopyList, deepCopyFields,
    dPop, dGet, dHas, dSet, vectorStep, sortProps, allPairsComp,
    comparableJ, pyCmpJ, sortKeyOf, isObjB, propLe, pyLeB, insSort,
    insertSorted, cmpStr, cmpInt, deepEq, deepEqElems, deepEqFields,
    countDeepEq]

/-- Claim C7: property order carries no meaning.  For every well-formed
document with a properties list, comparing it against the same document
whose properties list is permuted reports identical with an empty diff
(whenever the comparison completes). -/
theorem claim_C7 :
    ∀ (d : ConfigDocument) (p1 p2 : List JValue) (r : Bool × DiffDict),
      wfDoc d = true → dGet d "properties" = some (.arr p1) → p1.Perm p2 →
      compare_schemas d (dSet d "properties" (.arr p2)) = .ok r →
      r = (true, .empty) := by
  intro d p1 p2 r hwf hget hperm h
  unfold compare_schemas at h
  cases hn1 : normalize_schema d with
  | error e => simp only [hn1] at h; cases h
  | ok n1 =>
      obtain ⟨hn2, hgetn1⟩ := normalize_dSet_props hget hperm hn1
      simp only [hn1, hn2] at h
      have hwfn1 : wfDoc n1 = true := normalize_wf hwf hn1
      rw [wfDoc, Bool.and_eq_true] at hwfn1
      have hqperm : (insSort propLe p1).Perm (insSort propLe p2) :=
        ((insSort_perm propLe p1).trans hperm).trans
          (insSort_perm propLe p2).symm
      rw [deepEq_obj_dSet_perm hwfn1.1 hwfn1.2 hgetn1 hqperm] at h
      simp only [if_pos] at h
      injection h with h
      exact h.symm

/-- Witness for C7: the baseline with properties `[{name: b}, {name: a}]`
against the same document with `[{name: a}, {name: b}]`. -/
theorem claim_C7_witness :
    ∃ r, compare_schemas
      [("name", .str "T"),
       ("properties", .arr [.obj [("name", .str "b")],
         .obj [("name", .str "a")]])]
      (dSet [("name", .str "T"),
        ("properties", .arr [.obj [("name", .str "b")],
          .obj [("name", .str "a")]])]
        "properties" (.arr [.obj [("name", .str "a")],
          .obj [("name", .str "b")]]))
      = .ok r ∧ r = (true, .empty) := by
  have hc : compare_schemas
      [("name", .str "T"),
       ("properties", .arr [.obj [("name", .str "b")],
         .obj [("name", .str "a")]])]
      (dSet [("name", .str "T"),
        ("properties", .arr [.obj [("name", .str "b")],
          .obj [("name", .str "a")]])]
        "properties" (.arr [.obj [("name", .str "a")],
          .obj [("name", .str "b")]]))
      = .ok (true, .empty) := by
    simp +decide [compare_schemas, normalize_schema, propsStep, aliasStep,
      popTimestamps, deepCopyDoc, deepCopy, deepCopyList, deepCopyFields,
      dPop, dGet, dHas, dSet, vectorStep, sortProps, allPairsComp,
      comparableJ, pyCmpJ, sortKeyOf, isObjB, propLe, pyLeB, insSort,
      insertSorted, cmpStr, cmpInt, deepEq, deepEqElems, deepEqFields,
      countDeepEq]
  refine ⟨(true, .empty), hc, ?_⟩
  exact claim_C7 _ [.obj [("name", .str "b")], .obj [("name", .str "a")]]
    [.obj [("name", .str "a")], .obj [("name", .str "b")]] (true, .empty)
    (by simp [wfDoc, nodupKeys, wfFields, wfJ, wfList])
    (by simp [dGet]) (List.Perm.swap _ _ _) hc

/-- Claim C8: whenever the run reaches the summary (both document sets
non-empty and no exception), the boundary exit code is 0 exactly when the
summary counts no failures, and 1 exactly when it counts at least one. -/
theorem claim_C8 :
    ∀ (bs : List (String × LoadResult))
      (ex : List (String × List (String × LoadResult)))
      (rs : List Outcome) (s : Summary),
      bs ≠ [] → ex ≠ [] →
      compare_all_schemas bs ex = .ok rs →
      generate_summary rs = .ok s →
      ((mainRun bs ex = .ok 0 ↔ s.failed = 0) ∧
       (mainRun bs ex = .ok 1 ↔ s.failed ≠ 0)) := by
  intro bs ex rs s hbs hex hc hs
  have h := mainRun_exit hbs hex hc hs
  by_cases hf : s.failed = 0
  · rw [h]
    simp [hf]
  · rw [h]
    simp [hf]

/-- Witness for C8: a run whose only pair is not exported: one failure,
exit code 1. -/
theorem claim_C8_witness :
    (mainRun [("s1", .ok [("name", .str "T")])]
        [("c1", [("s2", .ok [("name", .str "U")])])] = .ok 0 ↔
      (⟨1, 0, 1, 0, [("c1", ⟨1, 0, 1⟩)], [("s1", ⟨1, 0, 1⟩)]⟩ : Summary).failed
        = 0) ∧
    (mainRun [("s1", .ok [("name", .str "T")])]
        [("c1", [("s2", .ok [("name", .str "U")])])] = .ok 1 ↔
      (⟨1, 0, 1, 0, [("c1", ⟨1, 0, 1⟩)], [("s1", ⟨1, 0, 1⟩)]⟩ : Summary).failed
        ≠ 0) := by
  have hc : compare_all_schemas [("s1", .ok [("name", .str "T")])]
      [("c1", [("s2", .ok [("name", .str "U")])])]
      = .ok [notExportedOutcome "s1" "c1"] := by
    simp [compare_all_schemas, compareClients, alookup]
  have hs : generate_summary [notExportedOutcome "s1" "c1"]
      = .ok ⟨1, 0, 1, 0, [("c1", ⟨1, 0, 1⟩)], [("s1", ⟨1, 0, 1⟩)]⟩ := by
    simp [generate_summary, notExportedOutcome, bump, pyDiv, Except.map]
  exact claim_C8 _ _ [notExportedOutcome "s1" "c1"] _ (by simp) (by simp)
    hc hs

/-- Claim C9: the imperative body of `normalize_schema` operates on a
deep copy held in a fresh reference: the argument reference is unchanged
by the call, and the value written to the fresh reference is exactly the
pure function of the input document. -/
theorem claim_C9 :
    ∀ (h : Heap) (r : Nat) (h2 : Heap) (r2 : Nat),
      normalize_schema_imp h r = .ok (h2, r2) →
      hGet h2 r = hGet h r ∧ r2 ≠ r ∧
        ∃ schema n, hGet h r = some schema ∧
          normalize_schema schema = .ok n ∧ hGet h2 r2 = some n :=
  fun _ _ _ _ hr => normalize_imp_frame hr

/-- Witness for C9: a one-document heap through the imperative
normalizer; the argument document is intact afterwards. -/
theorem claim_C9_witness :
    hGet [(0, [("class", JValue.str "T")]),
        (1, [("name", JValue.str "T")])] 0
      = hGet [(0, [("class", JValue.str "T")])] 0 ∧
    1 ≠ 0 ∧
    ∃ schema n, hGet [(0, [("class", JValue.str "T")])] 0 = some schema ∧
      normalize_schema schema = .ok n ∧
      hGet [(0, [("class", JValue.str "T")]),
        (1, [("name", JValue.str "T")])] 1 = some n := by
  have hr : normalize_schema_imp [(0, [("class", JValue.str "T")])] 0
      = .ok ([(0, [("class", JValue.str "T")]),
        (1, [("name", JValue.str "T")])], 1) := by
    simp [normalize_schema_imp, hGet, hSet, hFresh, hUpdate, hUpdateE,
      deepCopyDoc, deepCopy, deepCopyList, deepCopyFields, propsStep,
      aliasStep, popTimestamps, dPop, dGet, dHas, dSet, vectorStep]
  exact claim_C9 _ 0 _ 1 hr

/-- Claim C10: every summary produced by `generate_summary` is
internally consistent: `failed = total - passed`, `total` is the number
of outcomes, the per-client and per-schema totals each sum to the global
total, and each group entry satisfies `passed + failed = total`. -/
theorem claim_C10 :
    ∀ (rs : List Outcome) (s : Summary),
      generate_summary rs = .ok s →
      s.failed = s.total - s.passed ∧ s.total = rs.length ∧
      sumTotals s.clients = s.total ∧ sumTotals s.schemas = s.total ∧
      (∀ e ∈ s.clients, e.2.passed + e.2.failed = e.2.total) ∧
      (∀ e ∈ s.schemas, e.2.passed + e.2.failed = e.2.total) := by
  intro rs s h
  obtain ⟨ht, hp, hf, hc, hsch, _⟩ := generate_summary_inv h
  refine ⟨hf, ht, ?_, ?_, ?_, ?_⟩
  · rw [hc, ht]
    have := foldl_bump_sum (fun r => r.client) rs []
    simpa [sumTotals] using this
  · rw [hsch, ht]
    have := foldl_bump_sum (fun r => r.schema_name) rs []
    simpa [sumTotals] using this
  · rw [hc]
    exact foldl_bump_entry_inv (fun r => r.client) rs [] (by simp)
  · rw [hsch]
    exact foldl_bump_entry_inv (fun r => r.schema_name) rs [] (by simp)

/-- Witness for C10: a two-outcome list (one passing, one failing). -/
theorem claim_C10_witness :
    ∃ s, generate_summary
      [{ schema_name := "s1", client := "c1", matched := true,
         error := none, differences := .empty },
       { schema_name := "s1", client := "c2", matched := false,
         error := none, differences := .nonempty }] = .ok s ∧
      (s.failed = s.total - s.passed ∧ s.total = 2 ∧
       sumTotals s.clients = s.total ∧ sumTotals s.schemas = s.total ∧
       (∀ e ∈ s.clients, e.2.passed + e.2.failed = e.2.total) ∧
       (∀ e ∈ s.schemas, e.2.passed + e.2.failed = e.2.total)) := by
  obtain ⟨s, hs⟩ := generate_summary_total
    [{ schema_name := "s1", client := "c1", matched := true,
       error := none, differences := .empty },
     { schema_name := "s1", client := "c2", matched := false,
       error := none, differences := .nonempty }]
  refine ⟨s, hs, ?_⟩
  have h := claim_C10 _ s hs
  exact ⟨h.1, h.2.1, h.2.2.1, h.2.2.2.1, h.2.2.2.2.1, h.2.2.2.2.2⟩

end SchemaCompare
